import Mathlib

/-!
# Verification of the `numeric` tensor core (`src/tensor/mod.rs`)

This file gives a shallow embedding of the N-dimensional tensor type of the
`numeric` crate (flat row-major buffer plus a shape vector) and proves the
spec's claims about strides, ravel/unravel, slicing, reshaping and axis
permutation against that embedding.

Modelling conventions:
* `usize` values are modelled as `Nat`; `isize` values as `Int`.
* A Rust `panic!` (a failed `assert!`, an out-of-bounds `Vec` index, a
  division by zero, or a `usize` subtraction underflow, which panics in debug
  builds) is modelled as `Option.none`; fallible operations return `Option`.
* `x as usize` on an `isize` is a wrapping cast, modelled by `usizeWrap`
  (reduction mod `2 ^ 64`).  The cast `usize -> isize` appearing when a
  dimension size is pushed onto a shape list is modelled by `Int.ofNat`,
  which agrees with Rust for sizes below `2 ^ 63`.
* Rust `Vec` indexing at positions that the surrounding code guarantees to be
  in bounds is modelled with `List.getD`; every such site is annotated.
-/

set_option autoImplicit false

namespace Numeric



/-- `Tensor<T>`: a flat data buffer in row-major order plus a shape vector. -/
structure Tensor (α : Type) where
  data : List α
  shape : List Nat
deriving DecidableEq, Repr

/-- `AxisIndex`: the tagged index kinds used for advanced slicing. -/
inductive AxisIndex where
  | Full
  | Ellipsis
  | NewAxis
  | Index (i : Int)
  | Slice (start : Int) (en : Int)
  | SliceFrom (start : Int)
  | SliceTo (en : Int)
deriving DecidableEq, Repr

/-- `usize` subtraction: underflow panics (debug builds), modelled as `none`. -/
def checkedSub (a b : Nat) : Option Nat :=
  if b ≤ a then some (a - b) else none

/-- `x as usize` for an `isize` value `x`: wrapping cast, i.e. `x mod 2^64`. -/
def usizeWrap (i : Int) : Nat :=
  (i % (2 ^ 64 : Int)).toNat

/-- `x as isize` for a `usize` value `x`: wrapping cast — reduce mod `2^64`,
then values of `2^63` and above become negative. -/
def isizeWrap (n : Nat) : Int :=
  if n % 2 ^ 64 < 2 ^ 63 then ((n % 2 ^ 64 : Nat) : Int)
  else ((n % 2 ^ 64 : Nat) : Int) - 2 ^ 64

/-- `usize` multiplication: overflow past `2^64 - 1` panics (debug builds),
modelled as `none`. -/
def checkedMul (a b : Nat) : Option Nat :=
  if a * b < 2 ^ 64 then some (a * b) else none

/-- `usize` addition: overflow panics (debug builds), modelled as `none`. -/
def checkedAdd (a b : Nat) : Option Nat :=
  if a + b < 2 ^ 64 then some (a + b) else none

/-- `isize` addition: a sum outside `[-2^63, 2^63)` panics (debug builds),
modelled as `none`. -/
def checkedIAdd (a b : Int) : Option Int :=
  if -2 ^ 63 ≤ a + b ∧ a + b < 2 ^ 63 then some (a + b) else none

/-- `shape_product` (free function at the bottom of `mod.rs`):
`shape.iter().fold(1, |acc, &v| acc * v)`. -/
def shape_product (shape : List Nat) : Nat :=
  shape.foldl (fun acc v => acc * v) 1

namespace Tensor

variable {α : Type}

/-- `Tensor::size`: number of elements (`self.data.len()`). -/
def size (t : Tensor α) : Nat := t.data.length

/-- `Tensor::ndim`: number of axes (`self.shape.len()`). -/
def ndim (t : Tensor α) : Nat := t.shape.length

/-- `Tensor::empty()`: no elements, shape `[0]`. -/
def empty : Tensor α := ⟨[], [0]⟩

/-- `Tensor::new(data)`: shape `[data.len()]`. -/
def new (data : List α) : Tensor α := ⟨data, [data.length]⟩

/-- The data buffer built by `Tensor::range`: `size` values counting up from
`T::zero()` by repeatedly adding `T::one()`. -/
def rangeData [Add α] [One α] : Nat → α → List α
  | 0, _ => []
  | n + 1, v => v :: rangeData n (v + 1)

/-- `Tensor::range(size)`: shape `[size]`, values `0, 1, ...` -/
def range [Zero α] [One α] [Add α] (size : Nat) : Tensor α :=
  ⟨rangeData size 0, [size]⟩

/-- `Tensor::filled(shape, v)`: `shape_product shape` copies of `v`. -/
def filled (shape : List Nat) (v : α) : Tensor α :=
  ⟨List.replicate (shape_product shape) v, shape⟩

/-- `Tensor::zeros(shape)`. -/
def zeros [Zero α] (shape : List Nat) : Tensor α := filled shape 0

/-- `Tensor::ones(shape)`. -/
def ones [One α] (shape : List Nat) : Tensor α := filled shape 1

/-- The private 2-D element setter `Tensor::set(i, j, v)`:
`self.data[i * self.shape[1] + j] = v` (an out-of-bounds store panics).
`self.shape[1]` is modelled with `getD`; `eye` only calls this on `n × n`
tensors, where axis 1 exists. -/
def set (t : Tensor α) (i j : Nat) (v : α) : Option (Tensor α) :=
  let idx := i * t.shape.getD 1 0 + j
  if idx < t.data.length then some ⟨t.data.set idx v, t.shape⟩ else none

/-- `Tensor::eye(size)`: zeros, then the diagonal set to one. -/
def eye [Zero α] [One α] (size : Nat) : Option (Tensor α) :=
  (List.range size).foldlM (fun t k => Tensor.set t k k 1) (zeros [size, size])

/-- `Tensor::flatten()`: shape `[self.size()]`, same buffer. -/
def flatten (t : Tensor α) : Tensor α := ⟨t.data, [t.size]⟩

end Tensor

/-- The stride vector computed by `Tensor::strides`: `ss` starts as all ones
and the loop fills `ss[i] = ss[i+1] * shape[i+1]` from the right.  Written as
structural recursion from the right; the entries at positions `≥ 1` are
exactly the strides of the tail, so the loop and this recursion agree. -/
def stridesList : List Nat → List Nat
  | [] => []
  | [_] => [1]
  | _ :: d :: rest =>
    let ss := stridesList (d :: rest)
    ss.headD 1 * d :: ss

namespace Tensor

variable {α : Type}

/-- `Tensor::strides()`: row-major strides derived from the shape. -/
def strides (t : Tensor α) : List Nat := stridesList t.shape

/-- `Tensor::unravel_index` body: for each axis `ii.push(c / strides[i]);
c %= strides[i]`.  A zero stride makes the Rust division panic (`none`). -/
def unravelGo : List Nat → Nat → Option (List Nat)
  | [], _ => some []
  | st :: rest, c =>
    if st = 0 then none
    else do
      let tail ← unravelGo rest (c % st)
      pure (c / st :: tail)

/-- `Tensor::unravel_index(index)`: flat index to per-axis indices. -/
def unravel_index (t : Tensor α) (index : Nat) : Option (List Nat) :=
  unravelGo t.strides index

/-- `Tensor::ravel_index(ii)`: `assert_eq!(ii.len(), self.ndim())`, then
`sum strides[i] * ii[i]`. -/
def ravel_index (t : Tensor α) (ii : List Nat) : Option Nat :=
  if ii.length = t.ndim then
    some ((t.strides.zip ii).foldl (fun acc p => acc + p.1 * p.2) 0)
  else none

end Tensor

/-- `Tensor::convert_shape` loop: scan the requested shape, record the
position of the (at most one) `-1` wildcard, accumulate the `usize` product
`total` of the other entries (each cast `as usize`, i.e. wrapping), and build
`sh` with a `0` placeholder at the wildcard.  A second `-1` fails the assert;
`total *= v` is a `usize` multiplication, so its debug-build overflow panic is
modelled with `checkedMul`. -/
def convertGo : List Int → Nat → Option Nat → Nat → List Nat →
    Option (Option Nat × Nat × List Nat)
  | [], _, missing, total, sh => some (missing, total, sh)
  | x :: rest, i, missing, total, sh =>
    if x = -1 then
      match missing with
      | some _ => none
      | none => convertGo rest (i + 1) (some i) total (sh ++ [0])
    else do
      let total2 ← checkedMul total (usizeWrap x)
      convertGo rest (i + 1) missing total2 (sh ++ [usizeWrap x])

namespace Tensor

variable {α : Type}

/-- `Tensor::convert_shape(shape)`: resolve the wildcard (if any) to
`self.size() / total`; the Rust division panics when `total == 0`. -/
def convert_shape (t : Tensor α) (shape : List Int) : Option (List Nat) := do
  let (missing, total, sh) ← convertGo shape 0 none 1 []
  match missing with
  | some i => if total = 0 then none else pure (sh.set i (t.size / total))
  | none => pure sh

/-- `Tensor::reshaped(shape)`: convert the shape, then
`assert_eq!(self.size(), s)` where `s` is the product of the proper shape. -/
def reshaped (t : Tensor α) (shape : List Int) : Option (Tensor α) := do
  let proper ← t.convert_shape shape
  if t.size = proper.foldl (fun acc item => acc * item) 1 then
    pure (⟨t.data, proper⟩ : Tensor α)
  else none

/-- `Tensor::resolve_axis(axis, index)`: negative indices count from the end
of the axis.  The chain `(self.shape[axis] as isize + index) as usize` is
modelled cast by cast: `as isize` is the wrapping cast `isizeWrap`, the
`isize` addition panics on overflow in debug builds (`checkedIAdd`), and
`as usize` is the wrapping cast `usizeWrap`.  No bounds check is performed
here.  Call sites guarantee `axis < ndim` (modelled with `getD`). -/
def resolve_axis (t : Tensor α) (axis : Nat) (index : Int) : Option Nat :=
  if index < 0 then do
    let s ← checkedIAdd (isizeWrap (t.shape.getD axis 0)) index
    pure (usizeWrap s)
  else pure (usizeWrap index)

end Tensor

/-- Count of axis-consuming entries (`nondotted` in `expand_slices`):
everything except `NewAxis` and `Ellipsis`. -/
def nondotted (l : List AxisIndex) : Nat :=
  l.countP fun s =>
    match s with
    | .NewAxis => false
    | .Ellipsis => false
    | _ => true

/-- `newaxes[newaxes.len() - 1] += 1` (the `NewAxis` arm of the scan).  The
`newaxes` vector is nonempty at every call site (it starts as `vec![0]`). -/
def bumpLast (l : List Nat) : List Nat :=
  l.set (l.length - 1) (l.getD (l.length - 1) 0 + 1)

/-- The scan loop of `Tensor::expand_slices`.  `R` is the tensor rank, `nd`
the precomputed `nondotted` count.  The boolean is `ellipsis_found`; the pair
accumulates `(slices, newaxes)`.  A second `Ellipsis`, or an `Ellipsis` when
`R < nd`, fails the corresponding assert. -/
def expandGo (R nd : Nat) : List AxisIndex → Bool → List AxisIndex × List Nat →
    Option (List AxisIndex × List Nat)
  | [], _, acc => some acc
  | s :: rest, ef, (slices, newaxes) =>
    match s with
    | .Ellipsis =>
      if ef then none
      else if R < nd then none
      else expandGo R nd rest true
        (slices ++ List.replicate (R - nd) AxisIndex.Full,
         newaxes ++ List.replicate (R - nd) 0)
    | .NewAxis => expandGo R nd rest ef (slices, bumpLast newaxes)
    | s => expandGo R nd rest ef (slices ++ [s], newaxes ++ [0])

namespace Tensor

variable {α : Type}

/-- `Tensor::expand_slices(slices_raw)`: scan, then pad `slices` with `Full`
up to rank and `newaxes` with zeros up to rank + 1, then
`assert!(slices.len() == self.shape.len())` ("Too many indices specified").
(The `debug_assert!` on `newaxes` always holds and is not modelled.) -/
def expand_slices (t : Tensor α) (slices_raw : List AxisIndex) :
    Option (List AxisIndex × List Nat) := do
  let R := t.shape.length
  let (slices, newaxes) ← expandGo R (nondotted slices_raw) slices_raw false ([], [0])
  let slices := slices ++ List.replicate (R - slices.length) AxisIndex.Full
  let newaxes := newaxes ++ List.replicate (R + 1 - newaxes.length) 0
  if slices.length = R then pure (slices, newaxes) else none

/-- The per-axis loop of `Tensor::slice`: convert each expanded `AxisIndex`
into a half-open range `(st, en)`, record the running `indices` start values
and the per-axis output extents `dims = en - st` (underflow panics), and build
the final signed output shape, pushing each kept extent through the wrapping
cast `(en - st) as isize` (`isizeWrap`) and interleaving `newaxes[axis + 1]`
inserted length-1 axes after each kept axis.  The `idx + 1` of the `Index` arm
is a `usize` addition (`checkedAdd`).  `Ellipsis`/`NewAxis` are
`unreachable!()` here. -/
def buildGo (t : Tensor α) (newaxes : List Nat) :
    List AxisIndex → Nat → Option (List (Nat × Nat) × List Nat × List Nat × List Int)
  | [], _ => some ([], [], [], [])
  | s :: rest, axis => do
    let (st, en, keepdim) ←
      match s with
      | .Index i => do
        let idx ← t.resolve_axis axis i
        let en ← checkedAdd idx 1
        pure (idx, en, false)
      | .Full => some (0, t.shape.getD axis 0, true)
      | .Slice a b => do
        let st ← t.resolve_axis axis a
        let en ← t.resolve_axis axis b
        pure (st, en, true)
      | .SliceTo b => do
        let en ← t.resolve_axis axis b
        pure (0, en, true)
      | .SliceFrom a => do
        let st ← t.resolve_axis axis a
        pure (st, t.shape.getD axis 0, true)
      | .Ellipsis => none
      | .NewAxis => none
    let d ← checkedSub en st
    let (ranges, dims, inds, shape) ← buildGo t newaxes rest (axis + 1)
    pure ((st, en) :: ranges, d :: dims, st :: inds,
      (if keepdim then [isizeWrap d] else []) ++
        List.replicate (newaxes.getD (axis + 1) 0) (1 : Int) ++ shape)

end Tensor

/-- The carry ("odometer") inner `while` of the copy loop in `Tensor::slice`:
while `indices[c] >= ranges[c].1`, either stop at `c == 0` or reset axis `c`
to its range start, subtract its full contribution from the flat source
offset, advance axis `c - 1`, and continue.  All list accesses are at `c` or
`c - 1`, which are `< rank` at every call site (modelled with `getD`). -/
def carryLoop (ranges : List (Nat × Nat)) (dims strides : List Nat) :
    Nat → Nat → List Nat → Option (Nat × List Nat)
  | c, index, indices =>
    if (ranges.getD c (0, 0)).2 ≤ indices.getD c 0 then
      match c with
      | 0 => some (index, indices)
      | c' + 1 => do
        let indices' := (indices.set (c' + 1) (ranges.getD (c' + 1) (0, 0)).1).set c'
          (indices.getD c' 0 + 1)
        let index' ← checkedSub index (dims.getD (c' + 1) 0 * strides.getD (c' + 1) 0)
        carryLoop ranges dims strides c' (index' + strides.getD c' 0) indices'
    else some (index, indices)

/-- The copy loop of `Tensor::slice`: one pass over the output buffer.  Each
step copies `self.data[index]` (an out-of-bounds read panics) into
`t.data[base_i]`, advances the innermost axis, and carries.  `steps` is
`t.data.len()`.  With an empty stride vector `c = strides.len() - 1`
underflows and the subsequent indexing panics; modelled as `none`. -/
def copyLoop {α : Type} (src : List α) (ranges : List (Nat × Nat))
    (dims strides : List Nat) :
    Nat → Nat → List Nat → Nat → List α → Option (List α)
  | 0, _, _, _, out => some out
  | steps + 1, index, indices, base_i, out =>
    if strides.isEmpty then none
    else do
      let c := strides.length - 1
      let v ← src.get? index
      let out1 := out.set base_i v
      let index1 := index + strides.getD c 0
      let indices1 := indices.set c (indices.getD c 0 + strides.getD c 0)
      let (index2, indices2) ← carryLoop ranges dims strides c index1 indices1
      copyLoop src ranges dims strides steps index2 indices2 (base_i + 1) out1

namespace Tensor

variable {α : Type}

/-- `Tensor::slice(slices_raw)`: expand the request, resolve the per-axis
ranges, allocate `zeros(&dims)`, run the strided copy loop, and reshape the
result to the interleaved output shape. -/
def slice [Zero α] (t : Tensor α) (slices_raw : List AxisIndex) : Option (Tensor α) := do
  let (slices, newaxes) ← t.expand_slices slices_raw
  let (ranges, dims, indices, shapeTail) ← buildGo t newaxes slices 0
  let shape := List.replicate (newaxes.getD 0 0) (1 : Int) ++ shapeTail
  let t0 : Tensor α := zeros dims
  let strides := t.strides
  let index0 := (List.range strides.length).foldl
    (fun acc si => acc + strides.getD si 0 * indices.getD si 0) 0
  let out ← copyLoop t.data ranges dims strides t0.data.length index0 indices 0 t0.data
  reshaped (⟨out, dims⟩ : Tensor α) shape

/-- Swap positions `axis1` and `axis2` of a list (the three-statement swap in
`Tensor::swapaxes`). -/
def swapPos (l : List Nat) (axis1 axis2 : Nat) : List Nat :=
  (l.set axis1 (l.getD axis2 0)).set axis2 (l.getD axis1 0)

/-- Modelled from the spec: the `Index`/`IndexMut` operators live in the
`indexing` submodule, whose source is not under `src/`; per the spec they are
"a thin wrapper over `ravel_index` + direct buffer access and must
bounds-check each axis against `shape`". -/
def indexSet (t : Tensor α) (ii : List Nat) (v : α) : Option (Tensor α) :=
  if ii.length = t.ndim ∧ (ii.zip t.shape).all fun p => p.1 < p.2 then do
    let idx ← t.ravel_index ii
    if idx < t.data.length then pure (⟨t.data.set idx v, t.shape⟩ : Tensor α)
    else none
  else none

/-- `Tensor::swapaxes(axis1, axis2)`: assert both axes in range and distinct,
swap them in the shape, and copy every element to its permuted position
(`t[&ii] = self.data[i]` through the bounds-checked index operator). -/
def swapaxes [Zero α] (t : Tensor α) (axis1 axis2 : Nat) : Option (Tensor α) :=
  if axis1 < t.ndim ∧ axis2 < t.ndim ∧ axis1 ≠ axis2 then
    let shape := swapPos t.shape axis1 axis2
    (List.range t.size).foldlM
      (fun acc i => do
        let ii ← t.unravel_index i
        let ii' := swapPos ii axis1 axis2
        let v ← t.data.get? i
        indexSet acc ii' v)
      (zeros shape)
  else none

/-- `Tensor::transpose()`: rank 2 only; delegates to `swapaxes(0, 1)`. -/
def transpose [Zero α] (t : Tensor α) : Option (Tensor α) :=
  if t.ndim = 2 then t.swapaxes 0 1 else none

/-- The representation invariant: `data.len() == product(shape)`. -/
def Inv (t : Tensor α) : Prop := t.data.length = shape_product t.shape

instance (t : Tensor α) : Decidable t.Inv := by
  unfold Inv; infer_instance

end Tensor

/-! ## Basic lemmas about `shape_product` and `stridesList` -/

theorem shape_product_eq_prod (s : List Nat) : shape_product s = s.prod := by
  have h : ∀ (l : List Nat) (a : Nat), l.foldl (fun acc v => acc * v) a = a * l.prod := by
    intro l
    induction l with
    | nil => intro a; simp
    | cons x r ih => intro a; simp [List.foldl_cons, ih, mul_assoc]
  simpa using h s 1

theorem stridesList_length (s : List Nat) : (stridesList s).length = s.length := by
  induction s with
  | nil => rfl
  | cons x r ih =>
    cases r with
    | nil => rfl
    | cons d rest => simp only [stridesList, List.length_cons] at ih ⊢; omega

theorem stridesList_ne_nil {s : List Nat} (h : s ≠ []) : stridesList s ≠ [] := by
  intro hc
  have := stridesList_length s
  rw [hc] at this
  exact h (List.length_eq_zero.mp this.symm)

theorem stridesList_getD (s : List Nat) :
    ∀ i, i < s.length → (stridesList s).getD i 0 = (s.drop (i + 1)).prod := by
  induction s with
  | nil => intro i hi; simp at hi
  | cons x r ih =>
    intro i hi
    cases r with
    | nil =>
      have hi0 : i = 0 := by simpa using hi
      subst hi0
      simp [stridesList]
    | cons d rest =>
      cases i with
      | zero =>
        have hne : stridesList (d :: rest) ≠ [] := stridesList_ne_nil (by simp)
        have hh : (stridesList (d :: rest)).headD 1 = (stridesList (d :: rest)).getD 0 0 := by
          cases hsl : stridesList (d :: rest) with
          | nil => exact absurd hsl hne
          | cons a l => simp
        have h0 := ih 0 (by simp)
        simp only [stridesList, List.getD_cons_zero, hh, h0]
        simp [mul_comm]
      | succ j =>
        have hj : j < (d :: rest).length := by
          simpa using Nat.lt_of_succ_lt_succ hi
        have := ih j hj
        simp only [stridesList, List.getD_cons_succ]
        simpa using this

theorem stridesList_last (s : List Nat) (h : s ≠ []) :
    (stridesList s).getD (s.length - 1) 0 = 1 := by
  have hlen : 0 < s.length := List.length_pos.mpr h
  have := stridesList_getD s (s.length - 1) (by omega)
  rw [this]
  have : s.length - 1 + 1 = s.length := by omega
  rw [this]
  simp

theorem stridesList_pos (s : List Nat) (hpos : 0 < s.prod) :
    ∀ i, i < s.length → 0 < (stridesList s).getD i 0 := by
  intro i hi
  rw [stridesList_getD s i hi]
  rcases Nat.eq_zero_or_pos (s.drop (i + 1)).prod with h0 | h0
  · rw [← List.prod_take_mul_prod_drop s (i + 1), h0, mul_zero] at hpos
    exact absurd hpos (lt_irrefl 0)
  · exact h0

theorem stridesList_mem_pos {s : List Nat} (hpos : 0 < s.prod) :
    ∀ x ∈ stridesList s, 0 < x := by
  intro x hx
  obtain ⟨i, hi, rfl⟩ := List.mem_iff_getElem.mp hx
  have hi' : i < s.length := by rwa [stridesList_length] at hi
  have := stridesList_pos s hpos i hi'
  rwa [List.getD_eq_getElem _ _ hi] at this

/-- Sum of pointwise products, the value computed by `ravel_index`. -/
def sumProd : List Nat → List Nat → Nat
  | st :: r, i :: ir => st * i + sumProd r ir
  | _, _ => 0

theorem foldl_zip_eq_sumProd :
    ∀ (L ii : List Nat) (a : Nat),
      (L.zip ii).foldl (fun acc p => acc + p.1 * p.2) a = a + sumProd L ii := by
  intro L
  induction L with
  | nil => intro ii a; simp [sumProd]
  | cons st r ih =>
    intro ii a
    cases ii with
    | nil => simp [sumProd]
    | cons i ir =>
      simp only [List.zip_cons_cons, List.foldl_cons, ih, sumProd]
      ring

theorem unravelGo_length :
    ∀ (L : List Nat) (c : Nat) (ii : List Nat),
      Tensor.unravelGo L c = some ii → ii.length = L.length := by
  intro L
  induction L with
  | nil => intro c ii h; simp [Tensor.unravelGo] at h; simp [← h]
  | cons st r ih =>
    intro c ii h
    simp only [Tensor.unravelGo] at h
    split at h
    · exact absurd h (by simp)
    · cases htail : Tensor.unravelGo r (c % st) with
      | none => rw [htail] at h; simp at h
      | some tail =>
        rw [htail] at h
        simp only [Option.bind_eq_bind, Option.some_bind] at h
        cases h
        simp [ih _ _ htail]

theorem unravelGo_telescope :
    ∀ (L : List Nat), L ≠ [] → (∀ x ∈ L, 0 < x) →
      L.getD (L.length - 1) 0 = 1 →
      ∀ c, ∃ ii, Tensor.unravelGo L c = some ii ∧ sumProd L ii = c := by
  intro L
  induction L with
  | nil => intro h; exact absurd rfl h
  | cons st r ih =>
    intro _ hpos hlast c
    cases r with
    | nil =>
      have hst : st = 1 := by simpa using hlast
      subst hst
      exact ⟨[c], by simp [Tensor.unravelGo], by simp [sumProd]⟩
    | cons d rest =>
      have hst : 0 < st := hpos st (by simp)
      have hlast' : (d :: rest).getD ((d :: rest).length - 1) 0 = 1 := by
        have : (st :: d :: rest).length - 1 = ((d :: rest).length - 1) + 1 := by
          simp
        rw [this] at hlast
        simpa using hlast
      obtain ⟨tail, htail, hsum⟩ := ih (by simp)
        (fun x hx => hpos x (List.mem_cons_of_mem _ hx)) hlast' (c % st)
      refine ⟨c / st :: tail, ?_, ?_⟩
      · show (if st = 0 then none else do
            let tail ← Tensor.unravelGo (d :: rest) (c % st)
            pure (c / st :: tail)) = some (c / st :: tail)
        rw [if_neg hst.ne', htail]
        rfl
      · simp only [sumProd, hsum]
        exact Nat.div_add_mod c st

/-- Claim C3: for every tensor of rank at least 1 and every flat index `k`
below the total element count, `ravel_index (unravel_index k) = k`. -/
theorem ravel_unravel_roundtrip {α : Type} (t : Tensor α) (k : Nat)
    (hrank : 1 ≤ t.ndim) (hk : k < shape_product t.shape) :
    t.unravel_index k >>= t.ravel_index = some k := by
  have hprod : 0 < t.shape.prod := by
    rw [← shape_product_eq_prod]; omega
  have hne : t.shape ≠ [] := by
    intro hc
    have : t.ndim = 0 := by simp [Tensor.ndim, hc]
    omega
  have hstlen : t.strides.length = t.shape.length := stridesList_length _
  have hstne : t.strides ≠ [] := stridesList_ne_nil hne
  have hlast : t.strides.getD (t.strides.length - 1) 0 = 1 := by
    rw [hstlen]; exact stridesList_last _ hne
  obtain ⟨ii, hun, hsum⟩ := unravelGo_telescope t.strides hstne
    (stridesList_mem_pos hprod) hlast k
  rw [Tensor.unravel_index, hun]
  show t.ravel_index ii = some k
  rw [Tensor.ravel_index, if_pos (by rw [unravelGo_length _ _ _ hun, hstlen]; rfl),
    foldl_zip_eq_sumProd, hsum, Nat.zero_add]

/-- Witness for C3 at shape `[2, 3]`, `k = 5`. -/
theorem ravel_unravel_roundtrip_witness :
    1 ≤ (Tensor.mk ([0, 1, 2, 3, 4, 5] : List Nat) [2, 3]).ndim ∧
    5 < shape_product [2, 3] ∧
    (Tensor.mk ([0, 1, 2, 3, 4, 5] : List Nat) [2, 3]).unravel_index 5 >>=
      (Tensor.mk ([0, 1, 2, 3, 4, 5] : List Nat) [2, 3]).ravel_index = some 5 :=
  ⟨by decide, by decide,
    ravel_unravel_roundtrip (Tensor.mk ([0, 1, 2, 3, 4, 5] : List Nat) [2, 3]) 5
      (by decide) (by decide)⟩

/-! ## Wildcard reshape resolution (C7) -/

theorem option_bind_some {β γ : Type} (a : β) (f : β → Option γ) :
    (some a >>= f) = f a := rfl

theorem convertGo_append :
    ∀ (l₁ l₂ : List Int) (i : Nat) (missing : Option Nat) (total : Nat) (sh : List Nat),
      convertGo (l₁ ++ l₂) i missing total sh =
        (convertGo l₁ i missing total sh).bind
          fun r => convertGo l₂ (i + l₁.length) r.1 r.2.1 r.2.2 := by
  intro l₁
  induction l₁ with
  | nil => intro l₂ i missing total sh; simp [convertGo]
  | cons x r ih =>
    intro l₂ i missing total sh
    by_cases hx : x = -1
    · subst hx
      cases missing with
      | some m => simp [convertGo]
      | none =>
        simp only [List.cons_append, convertGo, if_pos rfl, List.append_eq]
        rw [ih]
        simp only [List.length_cons,
          show i + 1 + r.length = i + (r.length + 1) from by omega, if_true]
    · simp only [List.cons_append, convertGo, if_neg hx, List.append_eq]
      cases checkedMul total (usizeWrap x) with
      | none => rfl
      | some t2 =>
        rw [option_bind_some, option_bind_some, ih]
        simp only [List.length_cons,
          show i + 1 + r.length = i + (r.length + 1) from by omega]

theorem convertGo_no_wildcard :
    ∀ (l : List Int), l.count (-1) = 0 →
      ∀ (i : Nat) (missing : Option Nat) (total : Nat) (sh : List Nat),
        (∀ k, k ≤ l.length → total * ((l.map usizeWrap).take k).prod < 2 ^ 64) →
        convertGo l i missing total sh =
          some (missing, total * (l.map usizeWrap).prod, sh ++ l.map usizeWrap) := by
  intro l
  induction l with
  | nil => intro _ i missing total sh _; simp [convertGo]
  | cons x r ih =>
    intro hc i missing total sh hb
    rw [List.count_cons] at hc
    have hx : x ≠ -1 := by
      intro hcon; subst hcon; simp at hc
    have hr : r.count (-1) = 0 := by
      by_cases hxx : x = -1
      · exact absurd hxx hx
      · simpa [hxx] using hc
    have hm : checkedMul total (usizeWrap x) = some (total * usizeWrap x) := by
      rw [checkedMul, if_pos]
      have h1 := hb 1 (by simp)
      simpa using h1
    have hbr : ∀ k, k ≤ r.length →
        total * usizeWrap x * ((r.map usizeWrap).take k).prod < 2 ^ 64 := by
      intro k hk
      have h1 := hb (k + 1) (by simp; omega)
      rw [List.map_cons, List.take_succ_cons, List.prod_cons,
        ← Nat.mul_assoc] at h1
      exact h1
    simp only [convertGo, if_neg hx]
    rw [hm, option_bind_some, ih hr (i + 1) missing (total * usizeWrap x)
      (sh ++ [usizeWrap x]) hbr]
    simp [mul_assoc]

theorem convertGo_some_wildcard :
    ∀ (l : List Int), 1 ≤ l.count (-1) →
      ∀ (i m : Nat) (total : Nat) (sh : List Nat),
        convertGo l i (some m) total sh = none := by
  intro l
  induction l with
  | nil => intro hc; simp at hc
  | cons x r ih =>
    intro hc i m total sh
    by_cases hx : x = -1
    · subst hx; simp [convertGo]
    · have hr : 1 ≤ r.count (-1) := by
        rw [List.count_cons] at hc
        simpa [hx] using hc
      simp only [convertGo, if_neg hx]
      cases checkedMul total (usizeWrap x) with
      | none => rfl
      | some t2 =>
        rw [option_bind_some]
        exact ih hr _ _ _ _

theorem convertGo_two_wildcards :
    ∀ (l : List Int), 2 ≤ l.count (-1) →
      ∀ (i : Nat) (total : Nat) (sh : List Nat),
        convertGo l i none total sh = none := by
  intro l
  induction l with
  | nil => intro hc; simp at hc
  | cons x r ih =>
    intro hc i total sh
    by_cases hx : x = -1
    · subst hx
      have hr : 1 ≤ r.count (-1) := by
        simp [List.count_cons] at hc ⊢
        exact hc
      simp only [convertGo, if_pos rfl]
      exact convertGo_some_wildcard r hr _ _ _ _
    · have hr : 2 ≤ r.count (-1) := by
        rw [List.count_cons] at hc
        simpa [hx] using hc
      simp only [convertGo, if_neg hx]
      cases checkedMul total (usizeWrap x) with
      | none => rfl
      | some t2 =>
        rw [option_bind_some]
        exact ih hr _ _ _

theorem set_append_length {β : Type} :
    ∀ (l₁ : List β) (x v : β) (l₂ : List β),
      (l₁ ++ x :: l₂).set l₁.length v = l₁ ++ v :: l₂ := by
  intro l₁
  induction l₁ with
  | nil => intro x v l₂; rfl
  | cons a r ih => intro x v l₂; simp [List.set_cons_succ, ih]

theorem usizeWrap_eq_toNat {x : Int} (h0 : 0 ≤ x) (h64 : x < 2 ^ 64) :
    usizeWrap x = x.toNat := by
  rw [usizeWrap, Int.emod_eq_of_lt h0 (by exact_mod_cast h64)]

theorem isizeWrap_eq_ofNat {n : Nat} (h : n < 2 ^ 63) : isizeWrap n = (n : Int) := by
  rw [isizeWrap, Nat.mod_eq_of_lt (by omega), if_pos h]

theorem foldl_mul_eq_prod (l : List Nat) :
    l.foldl (fun acc item => acc * item) 1 = l.prod :=
  shape_product_eq_prod l

theorem convert_shape_no_wildcard {α : Type} (t : Tensor α) (sh : List Int)
    (h : sh.count (-1) = 0)
    (hbound : ∀ k, k ≤ sh.length → ((sh.map usizeWrap).take k).prod < 2 ^ 64) :
    t.convert_shape sh = some (sh.map usizeWrap) := by
  have hgo := convertGo_no_wildcard sh h 0 none 1 [] (by
    intro k hk
    rw [Nat.one_mul]
    exact hbound k hk)
  rw [Tensor.convert_shape, hgo]
  simp

theorem convert_shape_one_wildcard {α : Type} (t : Tensor α) (pre post : List Int)
    (hpre : pre.count (-1) = 0) (hpost : post.count (-1) = 0)
    (hbound : ∀ k, k ≤ pre.length + post.length →
      (((pre ++ post).map usizeWrap).take k).prod < 2 ^ 64) :
    t.convert_shape (pre ++ -1 :: post) =
      if (pre.map usizeWrap).prod * (post.map usizeWrap).prod = 0 then none
      else some (pre.map usizeWrap ++
        t.size / ((pre.map usizeWrap).prod * (post.map usizeWrap).prod) ::
          post.map usizeWrap) := by
  have hbpre : ∀ k, k ≤ pre.length →
      1 * ((pre.map usizeWrap).take k).prod < 2 ^ 64 := by
    intro k hk
    rw [Nat.one_mul]
    have h1 := hbound k (by omega)
    rwa [List.map_append,
      List.take_append_of_le_length (by simpa using hk)] at h1
  have hbpost : ∀ k, k ≤ post.length →
      1 * (pre.map usizeWrap).prod * ((post.map usizeWrap).take k).prod <
        2 ^ 64 := by
    intro k hk
    have h1 := hbound (pre.length + k) (by omega)
    rw [List.map_append,
      show pre.length + k = (pre.map usizeWrap).length + k from by
        rw [List.length_map],
      List.take_append, List.prod_append] at h1
    calc 1 * (pre.map usizeWrap).prod * ((post.map usizeWrap).take k).prod
        = (pre.map usizeWrap).prod * ((post.map usizeWrap).take k).prod := by
          ring
      _ < 2 ^ 64 := h1
  have hgopre := convertGo_no_wildcard pre hpre 0 none 1 [] hbpre
  rw [Tensor.convert_shape, convertGo_append, hgopre]
  show (convertGo (-1 :: post) (0 + pre.length) none (1 * (pre.map usizeWrap).prod)
      ([] ++ pre.map usizeWrap)).bind _ = _
  rw [show convertGo (-1 :: post) (0 + pre.length) none (1 * (pre.map usizeWrap).prod)
        ([] ++ pre.map usizeWrap) =
      convertGo post (0 + pre.length + 1) (some (0 + pre.length))
        (1 * (pre.map usizeWrap).prod) (([] ++ pre.map usizeWrap) ++ [0]) from by
    simp [convertGo]]
  rw [convertGo_no_wildcard post hpost (0 + pre.length + 1) (some (0 + pre.length))
    (1 * (pre.map usizeWrap).prod) (([] ++ pre.map usizeWrap) ++ [0]) hbpost]
  simp only [Option.some_bind, List.nil_append, Nat.zero_add, Nat.one_mul, one_mul]
  by_cases hz : (pre.map usizeWrap).prod * (post.map usizeWrap).prod = 0
  · rw [if_pos hz, if_pos hz]
  · rw [if_neg hz, if_neg hz]
    have hset : ((pre.map usizeWrap ++ [0]) ++ post.map usizeWrap).set pre.length
        (t.size / ((pre.map usizeWrap).prod * (post.map usizeWrap).prod)) =
        pre.map usizeWrap ++
          t.size / ((pre.map usizeWrap).prod * (post.map usizeWrap).prod) ::
            post.map usizeWrap := by
      rw [List.append_assoc, List.singleton_append,
        show pre.length = (pre.map usizeWrap).length from (List.length_map _ _).symm,
        set_append_length]
    rw [hset]
    rfl

/-- `reshaped` establishes the invariant whenever it succeeds: the final
`assert_eq!(self.size(), s)` is exactly `data.len() == product(shape)`. -/
theorem reshaped_inv {α : Type} (t t' : Tensor α) (sh : List Int)
    (h : t.reshaped sh = some t') : t'.Inv := by
  rw [Tensor.reshaped] at h
  cases hcs : t.convert_shape sh with
  | none => rw [hcs] at h; exact absurd h (by simp)
  | some proper =>
    rw [hcs] at h
    rw [option_bind_some] at h
    split at h
    next hsz =>
      cases h
      show t.data.length = shape_product proper
      exact hsz
    next => exact absurd h (by simp)

/-- Claim C7: `reshaped` resolves at most one `-1` wildcard to
`current_size / product(other axes)`; it fails when two or more wildcards
are given, when the product of the explicit axes does not divide the current
size, and (without a wildcard) when the requested total differs from the
current size.  The resolution clauses assume the running product of the
explicit entries stays below `2 ^ 64`: past that bound the `usize`
accumulation `total *= v` in `convert_shape` overflows and the program
panics in debug builds. -/
theorem reshaped_wildcard_resolution {α : Type} (t : Tensor α) (sh : List Int) :
    (2 ≤ sh.count (-1) → t.reshaped sh = none) ∧
    (sh.count (-1) = 0 → (∀ x ∈ sh, 0 ≤ x ∧ x < 2 ^ 64) →
      (∀ k, k ≤ sh.length → ((sh.map Int.toNat).take k).prod < 2 ^ 64) →
      ((sh.map Int.toNat).prod ≠ t.size → t.reshaped sh = none) ∧
      ((sh.map Int.toNat).prod = t.size →
        t.reshaped sh = some ⟨t.data, sh.map Int.toNat⟩)) ∧
    (∀ pre post : List Int, sh = pre ++ -1 :: post →
      pre.count (-1) = 0 → post.count (-1) = 0 →
      (∀ x ∈ pre ++ post, 0 ≤ x ∧ x < 2 ^ 64) →
      (∀ k, k ≤ pre.length + post.length →
        (((pre ++ post).map Int.toNat).take k).prod < 2 ^ 64) →
      (¬ ((pre ++ post).map Int.toNat).prod ∣ t.size → t.reshaped sh = none) ∧
      (((pre ++ post).map Int.toNat).prod ∣ t.size →
        ((pre ++ post).map Int.toNat).prod ≠ 0 →
        t.reshaped sh = some ⟨t.data, pre.map Int.toNat ++
          t.size / ((pre ++ post).map Int.toNat).prod :: post.map Int.toNat⟩)) := by
  refine ⟨?_, ?_, ?_⟩
  · intro h2
    rw [Tensor.reshaped, Tensor.convert_shape, convertGo_two_wildcards sh h2]
    rfl
  · intro h0 hrange hbound
    have hmap : sh.map usizeWrap = sh.map Int.toNat :=
      List.map_congr_left fun x hx =>
        usizeWrap_eq_toNat (hrange x hx).1 (hrange x hx).2
    have hconv := convert_shape_no_wildcard t sh h0 (by
      intro k hk
      rw [hmap]
      exact hbound k hk)
    rw [hmap] at hconv
    constructor
    · intro hne
      rw [Tensor.reshaped, hconv, option_bind_some]
      have hsz : ¬ (t.size = (sh.map Int.toNat).foldl (fun acc item => acc * item) 1) := by
        rw [foldl_mul_eq_prod]
        omega
      rw [if_neg hsz]
    · intro heq
      rw [Tensor.reshaped, hconv, option_bind_some]
      have hsz : t.size = (sh.map Int.toNat).foldl (fun acc item => acc * item) 1 := by
        rw [foldl_mul_eq_prod]
        omega
      rw [if_pos hsz]
      rfl
  · intro pre post hsh hpre hpost hrange hbound
    subst hsh
    have hmappre : pre.map usizeWrap = pre.map Int.toNat :=
      List.map_congr_left fun x hx =>
        usizeWrap_eq_toNat (hrange x (by simp [hx])).1 (hrange x (by simp [hx])).2
    have hmappost : post.map usizeWrap = post.map Int.toNat :=
      List.map_congr_left fun x hx =>
        usizeWrap_eq_toNat (hrange x (by simp [hx])).1 (hrange x (by simp [hx])).2
    have hprodsplit : ((pre ++ post).map Int.toNat).prod =
        (pre.map Int.toNat).prod * (post.map Int.toNat).prod := by
      rw [List.map_append, List.prod_append]
    have hconv := convert_shape_one_wildcard t pre post hpre hpost (by
      intro k hk
      rw [List.map_append, hmappre, hmappost, ← List.map_append]
      exact hbound k hk)
    rw [hmappre, hmappost] at hconv
    constructor
    · intro hndvd
      by_cases hz : (pre.map Int.toNat).prod * (post.map Int.toNat).prod = 0
      · rw [Tensor.reshaped, hconv, if_pos hz]
        rfl
      · rw [Tensor.reshaped, hconv, if_neg hz, option_bind_some]
        have hsz : ¬ (t.size = (pre.map Int.toNat ++
            t.size / ((pre.map Int.toNat).prod * (post.map Int.toNat).prod) ::
              post.map Int.toNat).foldl (fun acc item => acc * item) 1) := by
          intro hcon
          apply hndvd
          rw [hprodsplit]
          rw [foldl_mul_eq_prod, List.prod_append, List.prod_cons] at hcon
          refine ⟨t.size / ((pre.map Int.toNat).prod * (post.map Int.toNat).prod), ?_⟩
          conv_lhs => rw [hcon]
          ring
        rw [if_neg hsz]
    · intro hdvd hnz
      rw [hprodsplit] at hdvd hnz
      rw [Tensor.reshaped, hconv, if_neg hnz, option_bind_some]
      have hsz : t.size = (pre.map Int.toNat ++
          t.size / ((pre.map Int.toNat).prod * (post.map Int.toNat).prod) ::
            post.map Int.toNat).foldl (fun acc item => acc * item) 1 := by
        rw [foldl_mul_eq_prod, List.prod_append, List.prod_cons]
        have h1 : (pre.map Int.toNat).prod *
            (t.size / ((pre.map Int.toNat).prod * (post.map Int.toNat).prod) *
              (post.map Int.toNat).prod) =
            t.size / ((pre.map Int.toNat).prod * (post.map Int.toNat).prod) *
              ((pre.map Int.toNat).prod * (post.map Int.toNat).prod) := by ring
        rw [h1, Nat.div_mul_cancel hdvd]
      rw [if_pos hsz, hprodsplit]
      rfl

/-- Witness for C7: two wildcards fail; `[3, -1]` on six elements resolves to
`[3, 2]`. -/
theorem reshaped_wildcard_resolution_witness :
    (Tensor.mk ([0, 1, 2, 3, 4, 5] : List Nat) [6]).reshaped [-1, -1] = none ∧
    (Tensor.mk ([0, 1, 2, 3, 4, 5] : List Nat) [6]).reshaped [3, -1] =
      some ⟨[0, 1, 2, 3, 4, 5], [3, 2]⟩ :=
  ⟨(reshaped_wildcard_resolution (Tensor.mk ([0, 1, 2, 3, 4, 5] : List Nat) [6])
      [-1, -1]).1 (by decide),
   ((reshaped_wildcard_resolution (Tensor.mk ([0, 1, 2, 3, 4, 5] : List Nat) [6])
      [3, -1]).2.2 [3] [] rfl (by decide) (by decide) (by decide) (by decide)).2
     (by decide) (by decide)⟩

/-! ## The invariant `data.len() == product(shape)` (C5) -/

/-- `slice` written as an explicit composition of its stages (same function,
with the do-notation and local bindings unfolded). -/
theorem slice_eq {α : Type} [Zero α] (t : Tensor α) (sp : List AxisIndex) :
    t.slice sp =
      (t.expand_slices sp).bind fun p =>
        (Tensor.buildGo t p.2 p.1 0).bind fun q =>
          (copyLoop t.data q.1 q.2.1 t.strides
              (Tensor.zeros q.2.1 : Tensor α).data.length
              ((List.range t.strides.length).foldl
                (fun acc si => acc + t.strides.getD si 0 * q.2.2.1.getD si 0) 0)
              q.2.2.1 0 (Tensor.zeros q.2.1 : Tensor α).data).bind fun out =>
            Tensor.reshaped (⟨out, q.2.1⟩ : Tensor α)
              (List.replicate (p.2.getD 0 0) (1 : Int) ++ q.2.2.2) := by
  rw [Tensor.slice]
  cases hexp : t.expand_slices sp with
  | none => rfl
  | some p =>
    obtain ⟨slices, newaxes⟩ := p
    cases hbuild : Tensor.buildGo t newaxes slices 0 with
    | none => rfl
    | some q =>
      obtain ⟨ranges, dims, indices, shapeTail⟩ := q
      rfl

theorem foldlM_option_preserve {β γ : Type} (P : γ → Prop) (f : γ → β → Option γ)
    (hf : ∀ c b c', P c → f c b = some c' → P c') :
    ∀ (l : List β) (c0 c1 : γ), P c0 → l.foldlM f c0 = some c1 → P c1 := by
  intro l
  induction l with
  | nil =>
    intro c0 c1 h0 h
    rw [List.foldlM_nil] at h
    exact (Option.some_inj.mp h) ▸ h0
  | cons x r ih =>
    intro c0 c1 h0 h
    rw [List.foldlM_cons] at h
    cases hf0 : f c0 x with
    | none => rw [hf0] at h; exact absurd h (by simp)
    | some c' =>
      rw [hf0, option_bind_some] at h
      exact ih c' c1 (hf c0 x c' h0 hf0) h

theorem rangeData_length {α : Type} [Add α] [One α] :
    ∀ (n : Nat) (v : α), (Tensor.rangeData n v).length = n := by
  intro n
  induction n with
  | zero => intro v; rfl
  | succ m ih => intro v; simp [Tensor.rangeData, ih]

theorem filled_inv {α : Type} (sh : List Nat) (v : α) : (Tensor.filled sh v).Inv := by
  show (List.replicate (shape_product sh) v).length = shape_product sh
  exact List.length_replicate _ _

theorem set_inv {α : Type} (t t' : Tensor α) (i j : Nat) (v : α)
    (h0 : t.Inv) (h : Tensor.set t i j v = some t') : t'.Inv := by
  rw [Tensor.set] at h
  split at h
  · cases h
    show (t.data.set _ v).length = shape_product t.shape
    rw [List.length_set]
    exact h0
  · exact absurd h (by simp)

theorem eye_inv {α : Type} [Zero α] [One α] (n : Nat) (t' : Tensor α)
    (h : Tensor.eye n = some t') : t'.Inv := by
  rw [Tensor.eye] at h
  exact foldlM_option_preserve Tensor.Inv _
    (fun c b c' hc hstep => set_inv c c' b b 1 hc hstep)
    (List.range n) _ t' (filled_inv _ _) h

theorem indexSet_inv {α : Type} (t t' : Tensor α) (ii : List Nat) (v : α)
    (h0 : t.Inv) (h : Tensor.indexSet t ii v = some t') : t'.Inv := by
  rw [Tensor.indexSet] at h
  split at h
  · cases hr : t.ravel_index ii with
    | none => rw [hr] at h; exact absurd h (by simp)
    | some idx =>
      rw [hr, option_bind_some] at h
      split at h
      · cases h
        show (t.data.set idx v).length = shape_product t.shape
        rw [List.length_set]
        exact h0
      · exact absurd h (by simp)
  · exact absurd h (by simp)

theorem swapaxes_inv {α : Type} [Zero α] (t t' : Tensor α) (a b : Nat)
    (h : t.swapaxes a b = some t') : t'.Inv := by
  rw [Tensor.swapaxes] at h
  split at h
  · refine foldlM_option_preserve Tensor.Inv _ ?_ (List.range t.size) _ t'
      (filled_inv _ _) h
    intro c i c' hc hstep
    cases hu : t.unravel_index i with
    | none => rw [hu] at hstep; exact absurd hstep (by simp)
    | some ii =>
      rw [hu, option_bind_some] at hstep
      cases hv : t.data.get? i with
      | none => rw [hv] at hstep; exact absurd hstep (by simp)
      | some v =>
        rw [hv, option_bind_some] at hstep
        exact indexSet_inv c c' _ v hc hstep
  · exact absurd h (by simp)

theorem transpose_inv {α : Type} [Zero α] (t t' : Tensor α)
    (h : t.transpose = some t') : t'.Inv := by
  rw [Tensor.transpose] at h
  split at h
  · exact swapaxes_inv t t' 0 1 h
  · exact absurd h (by simp)

theorem slice_inv {α : Type} [Zero α] (t t' : Tensor α) (sp : List AxisIndex)
    (h : t.slice sp = some t') : t'.Inv := by
  rw [slice_eq] at h
  cases hexp : t.expand_slices sp with
  | none => rw [hexp] at h; exact absurd h (by simp)
  | some p =>
    rw [hexp, Option.some_bind'] at h
    cases hbuild : Tensor.buildGo t p.2 p.1 0 with
    | none => rw [hbuild] at h; exact absurd h (by simp)
    | some q =>
      rw [hbuild, Option.some_bind'] at h
      cases hcopy : copyLoop t.data q.1 q.2.1 t.strides
          (Tensor.zeros q.2.1 : Tensor α).data.length
          ((List.range t.strides.length).foldl
            (fun acc si => acc + t.strides.getD si 0 * q.2.2.1.getD si 0) 0)
          q.2.2.1 0 (Tensor.zeros q.2.1 : Tensor α).data with
      | none => rw [hcopy] at h; exact absurd h (by simp)
      | some out =>
        rw [hcopy, Option.some_bind'] at h
        exact reshaped_inv _ t' _ h

/-- Claim C5: every tensor handed back by a public constructor or
transformation satisfies `data.len() == product(shape)`. -/
theorem results_satisfy_inv :
    ∀ (α : Type) [Zero α] [One α] [Add α],
      (Tensor.empty : Tensor α).Inv ∧
      (∀ data : List α, (Tensor.new data).Inv) ∧
      (∀ n : Nat, (Tensor.range n : Tensor α).Inv) ∧
      (∀ (sh : List Nat) (v : α), (Tensor.filled sh v).Inv) ∧
      (∀ sh : List Nat, (Tensor.zeros sh : Tensor α).Inv) ∧
      (∀ sh : List Nat, (Tensor.ones sh : Tensor α).Inv) ∧
      (∀ (n : Nat) (t' : Tensor α), Tensor.eye n = some t' → t'.Inv) ∧
      (∀ (t t' : Tensor α) (sp : List AxisIndex), t.slice sp = some t' → t'.Inv) ∧
      (∀ (t t' : Tensor α) (a b : Nat), t.swapaxes a b = some t' → t'.Inv) ∧
      (∀ t t' : Tensor α, t.transpose = some t' → t'.Inv) ∧
      (∀ t : Tensor α, t.flatten.Inv) ∧
      (∀ (t t' : Tensor α) (sh : List Int), t.reshaped sh = some t' → t'.Inv) := by
  intro α _ _ _
  refine ⟨?_, ?_, ?_, fun sh v => filled_inv sh v, fun sh => filled_inv sh _,
    fun sh => filled_inv sh _, fun n t' => eye_inv n t',
    fun t t' sp => slice_inv t t' sp, fun t t' a b => swapaxes_inv t t' a b,
    fun t t' => transpose_inv t t', ?_, fun t t' sh => reshaped_inv t t' sh⟩
  · show ([] : List α).length = shape_product [0]
    rfl
  · intro data
    show data.length = shape_product [data.length]
    show data.length = 1 * data.length
    rw [Nat.one_mul]
  · intro n
    show (Tensor.rangeData n 0).length = shape_product [n]
    rw [rangeData_length]
    show n = 1 * n
    rw [Nat.one_mul]
  · intro t
    show t.data.length = shape_product [t.size]
    show t.data.length = 1 * t.size
    rw [Nat.one_mul]
    rfl

/-- Witness for C5: the `transpose` clause applied to a concrete tensor. -/
theorem results_satisfy_inv_witness :
    (Tensor.mk ([1, 2, 3, 4, 5, 6] : List Nat) [2, 3]).transpose =
      some (Tensor.mk [1, 4, 2, 5, 3, 6] [3, 2]) ∧
    (Tensor.mk ([1, 4, 2, 5, 3, 6] : List Nat) [3, 2]).Inv :=
  ⟨by decide,
   (results_satisfy_inv Nat).2.2.2.2.2.2.2.2.2.1
     (Tensor.mk ([1, 2, 3, 4, 5, 6] : List Nat) [2, 3])
     (Tensor.mk [1, 4, 2, 5, 3, 6] [3, 2]) (by decide)⟩

/-! ## Rejection of malformed slicing requests (C6) -/

theorem expandGo_ellipsis_overflow :
    ∀ (l : List AxisIndex) (R nd : Nat) (ef : Bool) (acc : List AxisIndex × List Nat),
      (if ef then 1 else 2) ≤ l.count AxisIndex.Ellipsis →
      expandGo R nd l ef acc = none := by
  intro l
  induction l with
  | nil =>
    intro R nd ef acc h
    cases ef <;> simp at h
  | cons s rest ih =>
    intro R nd ef acc h
    obtain ⟨slices, newaxes⟩ := acc
    cases s with
    | Ellipsis =>
      cases ef with
      | true => rfl
      | false =>
        show (if R < nd then none else _) = none
        split
        · rfl
        · apply ih
          have h2 : 2 ≤ (AxisIndex.Ellipsis :: rest).count AxisIndex.Ellipsis := h
          have hc : (AxisIndex.Ellipsis :: rest).count AxisIndex.Ellipsis =
              rest.count AxisIndex.Ellipsis + 1 := by
            simp [List.count_cons]
          rw [hc] at h2
          show 1 ≤ rest.count AxisIndex.Ellipsis
          omega
    | NewAxis =>
      apply ih
      have : (AxisIndex.NewAxis :: rest).count AxisIndex.Ellipsis =
          rest.count AxisIndex.Ellipsis := by
        simp [List.count_cons]
      rwa [this] at h
    | Full =>
      apply ih
      have : (AxisIndex.Full :: rest).count AxisIndex.Ellipsis =
          rest.count AxisIndex.Ellipsis := by
        simp [List.count_cons]
      rwa [this] at h
    | Index i =>
      apply ih
      have : (AxisIndex.Index i :: rest).count AxisIndex.Ellipsis =
          rest.count AxisIndex.Ellipsis := by
        simp [List.count_cons]
      rwa [this] at h
    | Slice a b =>
      apply ih
      have : (AxisIndex.Slice a b :: rest).count AxisIndex.Ellipsis =
          rest.count AxisIndex.Ellipsis := by
        simp [List.count_cons]
      rwa [this] at h
    | SliceFrom a =>
      apply ih
      have : (AxisIndex.SliceFrom a :: rest).count AxisIndex.Ellipsis =
          rest.count AxisIndex.Ellipsis := by
        simp [List.count_cons]
      rwa [this] at h
    | SliceTo b =>
      apply ih
      have : (AxisIndex.SliceTo b :: rest).count AxisIndex.Ellipsis =
          rest.count AxisIndex.Ellipsis := by
        simp [List.count_cons]
      rwa [this] at h

theorem expandGo_length_lower_bound :
    ∀ (l : List AxisIndex) (R nd : Nat) (ef : Bool) (sl : List AxisIndex)
      (na : List Nat) (sl' : List AxisIndex) (na' : List Nat),
      expandGo R nd l ef (sl, na) = some (sl', na') →
      sl.length + nondotted l ≤ sl'.length := by
  intro l
  induction l with
  | nil =>
    intro R nd ef sl na sl' na' h
    cases h
    simp [nondotted]
  | cons s rest ih =>
    intro R nd ef sl na sl' na' h
    cases s with
    | Ellipsis =>
      cases ef with
      | true => exact absurd h (by simp [expandGo])
      | false =>
        rw [show expandGo R nd (AxisIndex.Ellipsis :: rest) false (sl, na) =
            (if R < nd then none else expandGo R nd rest true
              (sl ++ List.replicate (R - nd) AxisIndex.Full,
               na ++ List.replicate (R - nd) 0)) from rfl] at h
        split at h
        · exact absurd h (by simp)
        · have := ih R nd true _ _ _ _ h
          rw [List.length_append] at this
          have hnd : nondotted (AxisIndex.Ellipsis :: rest) = nondotted rest := by
            simp [nondotted, List.countP_cons]
          omega
    | NewAxis =>
      have := ih R nd ef _ _ _ _ h
      have hnd : nondotted (AxisIndex.NewAxis :: rest) = nondotted rest := by
        simp [nondotted, List.countP_cons]
      omega
    | Full =>
      have := ih R nd ef _ _ _ _ h
      have hnd : nondotted (AxisIndex.Full :: rest) = nondotted rest + 1 := by
        simp [nondotted, List.countP_cons]
      rw [List.length_append] at this
      simp only [List.length_cons] at this ⊢
      omega
    | Index i =>
      have := ih R nd ef _ _ _ _ h
      have hnd : nondotted (AxisIndex.Index i :: rest) = nondotted rest + 1 := by
        simp [nondotted, List.countP_cons]
      simp only [List.length_append, List.length_singleton] at this
      omega
    | Slice a b =>
      have := ih R nd ef _ _ _ _ h
      have hnd : nondotted (AxisIndex.Slice a b :: rest) = nondotted rest + 1 := by
        simp [nondotted, List.countP_cons]
      simp only [List.length_append, List.length_singleton] at this
      omega
    | SliceFrom a =>
      have := ih R nd ef _ _ _ _ h
      have hnd : nondotted (AxisIndex.SliceFrom a :: rest) = nondotted rest + 1 := by
        simp [nondotted, List.countP_cons]
      simp only [List.length_append, List.length_singleton] at this
      omega
    | SliceTo b =>
      have := ih R nd ef _ _ _ _ h
      have hnd : nondotted (AxisIndex.SliceTo b :: rest) = nondotted rest + 1 := by
        simp [nondotted, List.countP_cons]
      simp only [List.length_append, List.length_singleton] at this
      omega

theorem expand_slices_two_ellipsis {α : Type} (t : Tensor α) (sp : List AxisIndex)
    (h : 2 ≤ sp.count AxisIndex.Ellipsis) : t.expand_slices sp = none := by
  rw [Tensor.expand_slices,
    expandGo_ellipsis_overflow sp t.shape.length (nondotted sp) false ([], [0])
      (by simpa using h)]
  rfl

theorem expand_slices_too_many {α : Type} (t : Tensor α) (sp : List AxisIndex)
    (h : t.ndim < nondotted sp) : t.expand_slices sp = none := by
  rw [Tensor.expand_slices]
  cases hgo : expandGo t.shape.length (nondotted sp) sp false ([], [0]) with
  | none => rfl
  | some p =>
    obtain ⟨sl', na'⟩ := p
    rw [option_bind_some]
    have hlen : nondotted sp ≤ sl'.length := by
      simpa using expandGo_length_lower_bound sp t.shape.length (nondotted sp)
        false [] [0] sl' na' hgo
    have hR : t.shape.length < sl'.length := lt_of_lt_of_le h hlen
    have hne : ¬ ((sl' ++ List.replicate (t.shape.length - sl'.length)
        AxisIndex.Full).length = t.shape.length) := by
      rw [List.length_append, List.length_replicate]
      omega
    simp [hne]
    omega

/-- Claim C6: a slicing specification with two or more `Ellipsis` entries
fails, and one with more axis-consuming entries than the tensor has axes
fails; no truncation or padding happens in either case. -/
theorem slice_rejects_malformed {α : Type} [Zero α] (t : Tensor α)
    (sp : List AxisIndex) :
    (2 ≤ sp.count AxisIndex.Ellipsis → t.slice sp = none) ∧
    (t.ndim < nondotted sp → t.slice sp = none) := by
  constructor
  · intro h
    rw [slice_eq, expand_slices_two_ellipsis t sp h]
    rfl
  · intro h
    rw [slice_eq, expand_slices_too_many t sp h]
    rfl

/-- Witness for C6 on a `[2, 3]` tensor. -/
theorem slice_rejects_malformed_witness :
    (Tensor.mk ([0, 1, 2, 3, 4, 5] : List Nat) [2, 3]).slice
      [AxisIndex.Ellipsis, AxisIndex.Ellipsis] = none ∧
    (Tensor.mk ([0, 1, 2, 3, 4, 5] : List Nat) [2, 3]).slice
      [AxisIndex.Index 0, AxisIndex.Index 0, AxisIndex.Index 0] = none :=
  ⟨(slice_rejects_malformed (Tensor.mk ([0, 1, 2, 3, 4, 5] : List Nat) [2, 3])
      [AxisIndex.Ellipsis, AxisIndex.Ellipsis]).1 (by decide),
   (slice_rejects_malformed (Tensor.mk ([0, 1, 2, 3, 4, 5] : List Nat) [2, 3])
      [AxisIndex.Index 0, AxisIndex.Index 0, AxisIndex.Index 0]).2 (by decide)⟩

/-! ## Out-of-range slicing does not always fail (C1) -/

/-- Claim C1 (code bug evidence): the claim requires `slice` to fail with an
IndexOutOfRange-class error whenever a resolved index falls outside
`[0, dim)`.  On the `[2, 3]` tensor below, `[Index(0), Index(3)]` resolves
axis 1 to index `3 ∉ [0, 3)`, yet `slice` performs no bounds check: the flat
offset `0 * 3 + 3 * 1 = 3` stays inside the buffer, so the call returns a
tensor (holding element `(1, 0)`, value `3`) instead of failing. -/
theorem slice_out_of_range_returns_tensor :
    (Tensor.mk ([0, 1, 2, 3, 4, 5] : List Nat) [2, 3]).slice
      [AxisIndex.Index 0, AxisIndex.Index 3] = some (Tensor.mk [3] []) := by
  decide

/-! ## The strided copy loop (odometer) of `slice`

The copy loop of `slice` is analysed for an arbitrary valid per-axis range
selection: axis `i` of a rank-`R` source of shape `s` contributes the
half-open range `[a i, a i + d i)` with `a i + d i ≤ s[i]`.  After `k` steps
the flat source offset is `∑ i, strides[i] * (a i + digit i)` where `digit`
runs through the mixed-radix digits of `k` in radices `d`. -/

/-- Product of `f (c), f (c+1), ..., f (R-1)`. -/
def tailProd (f : Nat → Nat) (R c : Nat) : Nat :=
  ((((List.range R).map f).drop c)).prod

/-- Digit `i` of `k` in the mixed-radix system with radices `d 0, ..., d (R-1)`
(most significant first). -/
def digitOf (d : Nat → Nat) (R k i : Nat) : Nat :=
  (k / tailProd d R (i + 1)) % d i

/-- Stride of axis `i` (`0` when out of range). -/
def stD (s : List Nat) (i : Nat) : Nat := (stridesList s).getD i 0

/-- Flat source offset at step `k` of the copy loop. -/
def idxSum (s : List Nat) (a d : Nat → Nat) (k : Nat) : Nat :=
  ∑ i in Finset.range s.length, stD s i * (a i + digitOf d s.length k i)

/-- The per-axis cursor values while the carry cascade is at level `c`:
axes above `c` already reset to their range starts, axis `c` advanced by
one, axes below `c` untouched. -/
def carryFun (a d : Nat → Nat) (R c k i : Nat) : Nat :=
  (if i ≤ c then a i + digitOf d R k i else a i) + (if i = c then 1 else 0)

def carrySum (s : List Nat) (a d : Nat → Nat) (c k : Nat) : Nat :=
  ∑ i in Finset.range s.length, stD s i * carryFun a d s.length c k i

def carryList (a d : Nat → Nat) (R c k : Nat) : List Nat :=
  (List.range R).map (carryFun a d R c k)

/-- The cursor list at the top of step `k`. -/
def indsList (a d : Nat → Nat) (R k : Nat) : List Nat :=
  (List.range R).map (fun i => a i + digitOf d R k i)

theorem getD_map_range {β : Type} (f : Nat → β) (R c : Nat) (hc : c < R) (dflt : β) :
    ((List.range R).map f).getD c dflt = f c := by
  rw [List.getD_eq_getElem _ _ (by simpa using hc)]
  simp

theorem set_map_range {β : Type} (f : Nat → β) (R c : Nat) (v : β) :
    ((List.range R).map f).set c v =
      (List.range R).map (fun i => if i = c then v else f i) := by
  apply List.ext_getElem
  · simp
  · intro i h1 h2
    rw [List.getElem_set]
    simp only [List.getElem_map, List.getElem_range]
    by_cases hic : i = c
    · subst hic; simp
    · rw [if_neg (fun hci => hic hci.symm), if_neg hic]

theorem tailProd_succ (f : Nat → Nat) (R c : Nat) (hc : c < R) :
    tailProd f R c = f c * tailProd f R (c + 1) := by
  rw [tailProd, tailProd,
    List.drop_eq_getElem_cons (by simpa using hc), List.prod_cons]
  simp

theorem tailProd_last (f : Nat → Nat) (R : Nat) : tailProd f R R = 1 := by
  rw [tailProd, List.drop_eq_nil_of_le (by simp)]
  rfl

theorem tailProd_dvd (f : Nat → Nat) (R : Nat) :
    ∀ c c', c ≤ c' → c' ≤ R → tailProd f R c' ∣ tailProd f R c := by
  intro c c' hcc' hc'R
  induction c' with
  | zero =>
    have : c = 0 := Nat.le_zero.mp hcc'
    subst this
    exact dvd_rfl
  | succ m ih =>
    rcases Nat.eq_or_lt_of_le hcc' with heq | hlt
    · subst heq; exact dvd_rfl
    · have hm : c ≤ m := Nat.lt_succ_iff.mp hlt
      have hmR : m ≤ R := by omega
      refine dvd_trans ?_ (ih hm hmR)
      rw [tailProd_succ f R m (by omega)]
      exact dvd_mul_left _ _

theorem tailProd_pos (f : Nat → Nat) (R : Nat)
    (hpos : ∀ i, i < R → 0 < f i) : ∀ c, 0 < tailProd f R c := by
  intro c
  rw [tailProd]
  apply List.prod_pos
  intro x hx
  have hx' : x ∈ (List.range R).map f := List.mem_of_mem_drop hx
  obtain ⟨i, hi, rfl⟩ := List.mem_map.mp hx'
  exact hpos i (List.mem_range.mp hi)

theorem radix_pos_of_total_pos (d : Nat → Nat) (R : Nat)
    (hN : 0 < tailProd d R 0) : ∀ i, i < R → 0 < d i := by
  intro i hi
  by_contra h0
  have hd0 : d i = 0 := by omega
  have : (0 : Nat) ∈ (List.range R).map d := by
    rw [List.mem_map]
    exact ⟨i, List.mem_range.mpr hi, hd0⟩
  have := List.prod_eq_zero this
  rw [tailProd, List.drop_zero] at hN
  omega

theorem digitOf_lt (d : Nat → Nat) (R k i : Nat) (hd : 0 < d i) :
    digitOf d R k i < d i :=
  Nat.mod_lt _ hd

theorem succ_mod_of_succ_lt (m n : Nat) (h : m % n + 1 < n) :
    (m + 1) % n = m % n + 1 := by
  conv_lhs => rw [← Nat.div_add_mod m n, Nat.add_assoc, Nat.mul_add_mod]
  exact Nat.mod_eq_of_lt h

/-- A strict bound for a raveled multi-index: if every component is below its
dimension, the flat offset is below the total size. -/
theorem sum_stride_lt_prod :
    ∀ (s : List Nat) (c : Nat → Nat),
      (∀ i, i < s.length → c i < s.getD i 0) →
      (∑ i in Finset.range s.length, (s.drop (i + 1)).prod * c i) < s.prod := by
  intro s
  induction s with
  | nil => intro c _; simp
  | cons x r ih =>
    intro c hc
    rw [List.length_cons, Finset.sum_range_succ']
    have hx : c 0 < x := by simpa using hc 0 (by simp)
    have htail : (∑ i in Finset.range r.length,
        (r.drop (i + 1)).prod * c (i + 1)) < r.prod := by
      apply ih
      intro i hi
      simpa using hc (i + 1) (by simpa using Nat.succ_lt_succ hi)
    have hterm : ∀ i ∈ Finset.range r.length,
        ((x :: r).drop (i + 1 + 1)).prod * c (i + 1) =
          (r.drop (i + 1)).prod * c (i + 1) := by
      intro i _
      rfl
    rw [Finset.sum_congr rfl hterm]
    have h0 : ((x :: r).drop (0 + 1)).prod * c 0 = r.prod * c 0 := rfl
    rw [h0, List.prod_cons]
    calc (∑ i in Finset.range r.length, (r.drop (i + 1)).prod * c (i + 1)) +
          r.prod * c 0
        < r.prod + r.prod * c 0 := by omega
      _ = r.prod * (c 0 + 1) := by ring
      _ ≤ r.prod * x := Nat.mul_le_mul_left _ hx
      _ = x * r.prod := Nat.mul_comm _ _

/-- The mixed-radix digit expansion sums back to the number: the full-range
case of the copy-loop offset. -/
theorem sum_digit_expansion :
    ∀ (s : List Nat) (j : Nat), j < s.prod →
      (∑ i in Finset.range s.length,
        (s.drop (i + 1)).prod * ((j / (s.drop (i + 1)).prod) % s.getD i 0)) = j := by
  intro s
  induction s with
  | nil =>
    intro j hj
    simp only [List.prod_nil, Nat.lt_one_iff] at hj
    simp [hj]
  | cons x r ih =>
    intro j hj
    rw [List.length_cons, Finset.sum_range_succ']
    have hrpos : 0 < r.prod := by
      rcases Nat.eq_zero_or_pos r.prod with h0 | h0
      · rw [List.prod_cons, h0, Nat.mul_zero] at hj; omega
      · exact h0
    have hterm : ∀ i ∈ Finset.range r.length,
        ((x :: r).drop (i + 1 + 1)).prod *
            ((j / ((x :: r).drop (i + 1 + 1)).prod) % (x :: r).getD (i + 1) 0) =
          (r.drop (i + 1)).prod *
            (((j % r.prod) / (r.drop (i + 1)).prod) % r.getD i 0) := by
      intro i hi
      have hi' : i < r.length := Finset.mem_range.mp hi
      have hdropeq : ((x :: r).drop (i + 1 + 1)) = r.drop (i + 1) := rfl
      have hgetD : ((x :: r)).getD (i + 1) 0 = r.getD i 0 := rfl
      rw [hdropeq, hgetD]
      congr 1
      -- (j / Q) % r[i] = ((j % r.prod) / Q) % r[i]  where  r[i] * Q ∣ r.prod
      have hQpos : 0 < (r.drop (i + 1)).prod := by
        rcases Nat.eq_zero_or_pos (r.drop (i + 1)).prod with h0 | h0
        · rw [← List.prod_take_mul_prod_drop r (i + 1), h0, Nat.mul_zero] at hrpos
          omega
        · exact h0
      have hsplit : r.prod = (r.take i).prod * (r.getD i 0 * (r.drop (i + 1)).prod) := by
        rw [← List.prod_take_mul_prod_drop r i,
          List.drop_eq_getElem_cons hi', List.prod_cons,
          List.getD_eq_getElem _ _ hi']
      have hdvd : (r.drop (i + 1)).prod ∣ r.prod := by
        rw [hsplit]
        exact ⟨(r.take i).prod * r.getD i 0, by ring⟩
      have h1 : ∀ t : Nat, r.prod * t / (r.drop (i + 1)).prod =
          (r.take i).prod * r.getD i 0 * t := by
        intro t
        rw [hsplit, show (r.take i).prod * (r.getD i 0 * (r.drop (i + 1)).prod) * t
            = (r.take i).prod * r.getD i 0 * t * (r.drop (i + 1)).prod from by ring,
          Nat.mul_div_cancel _ hQpos]
      conv_lhs => rw [show j = r.prod * (j / r.prod) + j % r.prod from
        (Nat.div_add_mod j r.prod).symm]
      rw [Nat.add_div_of_dvd_right (dvd_mul_of_dvd_left hdvd _), h1,
        show (r.take i).prod * r.getD i 0 * (j / r.prod) +
            j % r.prod / (r.drop (i + 1)).prod
          = r.getD i 0 * ((r.take i).prod * (j / r.prod)) +
            j % r.prod / (r.drop (i + 1)).prod from by ring,
        Nat.mul_add_mod]
    have hsum : (∑ i in Finset.range r.length,
        (r.drop (i + 1)).prod * (((j % r.prod) / (r.drop (i + 1)).prod) % r.getD i 0))
        = j % r.prod := ih (j % r.prod) (Nat.mod_lt _ hrpos)
    rw [Finset.sum_congr rfl hterm, hsum]
    show j % r.prod + r.prod * ((j / r.prod) % x) = j
    have hjx : j / r.prod < x := by
      rw [Nat.div_lt_iff_lt_mul hrpos]
      rw [List.prod_cons] at hj
      omega
    rw [Nat.mod_eq_of_lt hjx]
    have := Nat.div_add_mod j r.prod
    omega

/-! ### Digit transitions of the mixed-radix counter -/

theorem div_of_succ_eq_mul (P M k : Nat) (hP : 0 < P) (hk : k + 1 = P * M) :
    k / P = M - 1 ∧ 1 ≤ M := by
  cases M with
  | zero => omega
  | succ m =>
    have hk' : k = P * m + (P - 1) := by
      have : P * (m + 1) = P * m + P := by ring
      omega
    constructor
    · rw [hk', Nat.mul_add_div hP, Nat.div_eq_of_lt (by omega)]
      omega
    · omega

theorem digitOf_pred (d : Nat → Nat) (R c k M : Nat)
    (hP : 0 < tailProd d R (c + 1)) (hk : k + 1 = tailProd d R (c + 1) * M) :
    digitOf d R k c = (M - 1) % d c := by
  rw [digitOf, (div_of_succ_eq_mul _ M k hP hk).1]

theorem digitOf_succ_high (d : Nat → Nat) (R c k i : Nat) (hci : c < i) (hiR : i < R)
    (hpos : ∀ j, j < R → 0 < d j)
    (hmod : (k + 1) % tailProd d R (c + 1) = 0) :
    digitOf d R (k + 1) i = 0 := by
  have hdvd1 : tailProd d R i ∣ tailProd d R (c + 1) :=
    tailProd_dvd d R (c + 1) i (by omega) (by omega)
  have hdvd2 : tailProd d R i ∣ k + 1 :=
    dvd_trans hdvd1 (Nat.dvd_of_mod_eq_zero hmod)
  obtain ⟨M', hM'⟩ := hdvd2
  rw [tailProd_succ d R i hiR] at hM'
  have hQpos : 0 < tailProd d R (i + 1) :=
    tailProd_pos d R (fun j hj => hpos j hj) (i + 1)
  rw [digitOf, hM',
    show d i * tailProd d R (i + 1) * M' = tailProd d R (i + 1) * (d i * M') from by ring,
    Nat.mul_div_cancel_left _ hQpos, Nat.mul_mod_right]

theorem digitOf_succ_low (d : Nat → Nat) (R c k i : Nat) (hic : i < c) (hcR : c < R)
    (hpos : ∀ j, j < R → 0 < d j)
    (hmod : (k + 1) % tailProd d R (c + 1) = 0)
    (hnd : ¬ d c ∣ (k + 1) / tailProd d R (c + 1)) :
    digitOf d R (k + 1) i = digitOf d R k i := by
  have hPpos : 0 < tailProd d R (c + 1) :=
    tailProd_pos d R (fun j hj => hpos j hj) (c + 1)
  have hnotdvd : ¬ tailProd d R (i + 1) ∣ k + 1 := by
    intro hcon
    have hdvd1 : tailProd d R c ∣ tailProd d R (i + 1) :=
      tailProd_dvd d R (i + 1) c (by omega) (by omega)
    have hdvd2 : tailProd d R c ∣ k + 1 := dvd_trans hdvd1 hcon
    rw [tailProd_succ d R c hcR] at hdvd2
    obtain ⟨w, hw⟩ := hdvd2
    apply hnd
    refine ⟨w, ?_⟩
    have : k + 1 = tailProd d R (c + 1) * (d c * w) := by rw [hw]; ring
    rw [this, Nat.mul_div_cancel_left _ hPpos]
  rw [digitOf, digitOf, Nat.succ_div, if_neg hnotdvd, Nat.add_zero]

theorem digitOf_succ_at (d : Nat → Nat) (R c k : Nat) (hcR : c < R)
    (hpos : ∀ j, j < R → 0 < d j)
    (hmod : (k + 1) % tailProd d R (c + 1) = 0)
    (hlt : digitOf d R k c + 1 < d c) :
    digitOf d R (k + 1) c = digitOf d R k c + 1 ∧
      ¬ d c ∣ (k + 1) / tailProd d R (c + 1) := by
  have hPpos : 0 < tailProd d R (c + 1) :=
    tailProd_pos d R (fun j hj => hpos j hj) (c + 1)
  obtain ⟨M, hM⟩ := Nat.dvd_of_mod_eq_zero hmod
  have hdig := digitOf_pred d R c k M hPpos hM
  have hM1 : 1 ≤ M := (div_of_succ_eq_mul _ M k hPpos hM).2
  have hMsucc : M = (M - 1) + 1 := by omega
  have hdiv : (k + 1) / tailProd d R (c + 1) = M := by
    rw [hM, Nat.mul_div_cancel_left _ hPpos]
  have hMd : M % d c = (M - 1) % d c + 1 := by
    conv_lhs => rw [hMsucc]
    exact succ_mod_of_succ_lt _ _ (by rw [← hdig]; exact hlt)
  constructor
  · rw [digitOf, hdiv, hMd, hdig]
  · intro hcon
    rw [hdiv] at hcon
    obtain ⟨w, hw⟩ := hcon
    have hz : M % d c = 0 := by rw [hw, Nat.mul_mod_right]
    omega

theorem carry_mod_zero (d : Nat → Nat) (R c k : Nat) (hcR : c < R)
    (hpos : ∀ j, j < R → 0 < d j)
    (hmod : (k + 1) % tailProd d R (c + 1) = 0)
    (hge : d c ≤ digitOf d R k c + 1) :
    (k + 1) % tailProd d R c = 0 := by
  have hPpos : 0 < tailProd d R (c + 1) :=
    tailProd_pos d R (fun j hj => hpos j hj) (c + 1)
  obtain ⟨M, hM⟩ := Nat.dvd_of_mod_eq_zero hmod
  have hdig := digitOf_pred d R c k M hPpos hM
  have hM1 : 1 ≤ M := (div_of_succ_eq_mul _ M k hPpos hM).2
  have hdc : 0 < d c := hpos c hcR
  have heq : digitOf d R k c + 1 = d c := by
    have := digitOf_lt d R k c hdc
    omega
  have hMd : d c ∣ M := by
    have h1 : (M - 1) % d c = d c - 1 := by
      rw [← hdig]
      omega
    have h2 : M % d c = 0 := by
      conv_lhs => rw [show M = (M - 1) + 1 from by omega]
      rw [← Nat.div_add_mod (M - 1) (d c), h1, Nat.add_assoc,
        show d c - 1 + 1 = d c from by omega, Nat.add_comm,
        show d c + d c * ((M - 1) / d c) = d c * (1 + (M - 1) / d c) from by ring,
        Nat.mul_mod_right]
    exact Nat.dvd_of_mod_eq_zero h2
  obtain ⟨w, hw⟩ := hMd
  rw [tailProd_succ d R c hcR,
    show k + 1 = d c * tailProd d R (c + 1) * w from by rw [hM, hw]; ring,
    Nat.mul_mod_right]

/-! ### Sum and cursor-list bookkeeping of the carry cascade -/

/-- The cascade-level sum without the `+1` on axis `c`. -/
def baseSum (s : List Nat) (a d : Nat → Nat) (c k : Nat) : Nat :=
  ∑ i in Finset.range s.length,
    stD s i * (if i ≤ c then a i + digitOf d s.length k i else a i)

theorem carrySum_eq (s : List Nat) (a d : Nat → Nat) (c k : Nat) (hc : c < s.length) :
    carrySum s a d c k = baseSum s a d c k + stD s c := by
  rw [carrySum, baseSum]
  have hterm : ∀ i ∈ Finset.range s.length,
      stD s i * carryFun a d s.length c k i =
        stD s i * (if i ≤ c then a i + digitOf d s.length k i else a i) +
          (if i = c then stD s i else 0) := by
    intro i _
    rw [carryFun, Nat.mul_add]
    congr 1
    by_cases hic : i = c
    · subst hic; simp
    · simp [hic]
  rw [Finset.sum_congr rfl hterm, Finset.sum_add_distrib, Finset.sum_ite_eq',
    if_pos (Finset.mem_range.mpr hc)]

theorem baseSum_succ (s : List Nat) (a d : Nat → Nat) (c k : Nat)
    (hc : c + 1 < s.length) :
    baseSum s a d (c + 1) k =
      baseSum s a d c k + stD s (c + 1) * digitOf d s.length k (c + 1) := by
  rw [baseSum, baseSum]
  have hterm : ∀ i ∈ Finset.range s.length,
      stD s i * (if i ≤ c + 1 then a i + digitOf d s.length k i else a i) =
        stD s i * (if i ≤ c then a i + digitOf d s.length k i else a i) +
          (if i = c + 1 then stD s i * digitOf d s.length k i else 0) := by
    intro i _
    by_cases h1 : i ≤ c
    · rw [if_pos (by omega), if_pos h1, if_neg (by omega), Nat.add_zero]
    · by_cases h2 : i = c + 1
      · subst h2
        rw [if_pos (by omega), if_neg h1, if_pos rfl]
        ring
      · rw [if_neg (by omega), if_neg h1, if_neg h2, Nat.add_zero]
  rw [Finset.sum_congr rfl hterm, Finset.sum_add_distrib, Finset.sum_ite_eq',
    if_pos (Finset.mem_range.mpr hc)]

theorem baseSum_top (s : List Nat) (a d : Nat → Nat) (k : Nat) (hs : s ≠ []) :
    baseSum s a d (s.length - 1) k = idxSum s a d k := by
  rw [baseSum, idxSum]
  apply Finset.sum_congr rfl
  intro i hi
  rw [if_pos]
  have := Finset.mem_range.mp hi
  omega

theorem carrySum_top (s : List Nat) (a d : Nat → Nat) (k : Nat) (hs : s ≠ []) :
    carrySum s a d (s.length - 1) k = idxSum s a d k + 1 := by
  have hlen : 0 < s.length := List.length_pos.mpr hs
  rw [carrySum_eq s a d _ k (by omega), baseSum_top s a d k hs]
  rw [show stD s (s.length - 1) = 1 from stridesList_last s hs]

theorem carrySum_carry_step (s : List Nat) (a d : Nat → Nat) (c k : Nat)
    (hc : c + 1 < s.length)
    (heq : digitOf d s.length k (c + 1) + 1 = d (c + 1)) :
    carrySum s a d (c + 1) k = baseSum s a d c k + stD s (c + 1) * d (c + 1) := by
  rw [carrySum_eq s a d (c + 1) k hc, baseSum_succ s a d c k hc, ← heq]
  ring

theorem map_range_congr {β : Type} (f g : Nat → β) (R : Nat)
    (h : ∀ i, i < R → f i = g i) : (List.range R).map f = (List.range R).map g := by
  apply List.map_congr_left
  intro i hi
  exact h i (List.mem_range.mp hi)

theorem carryList_entry (a d : Nat → Nat) (R k : Nat) (hR : 1 ≤ R) :
    (indsList a d R k).set (R - 1) ((indsList a d R k).getD (R - 1) 0 + 1) =
      carryList a d R (R - 1) k := by
  rw [indsList, carryList, set_map_range, getD_map_range _ _ _ (by omega)]
  apply map_range_congr
  intro i hi
  by_cases hieq : i = R - 1
  · subst hieq
    rw [if_pos rfl, carryFun, if_pos (le_refl _), if_pos rfl]
  · rw [if_neg hieq, carryFun, if_pos (by omega), if_neg hieq, Nat.add_zero]

theorem carryList_step (a d : Nat → Nat) (R c k : Nat) (hc : c + 1 < R) :
    ((carryList a d R (c + 1) k).set (c + 1) (a (c + 1))).set c
        ((carryList a d R (c + 1) k).getD c 0 + 1) =
      carryList a d R c k := by
  rw [carryList, set_map_range, set_map_range, getD_map_range _ _ _ (by omega),
    carryList]
  apply map_range_congr
  intro i hi
  by_cases h1 : i = c
  · subst h1
    rw [if_pos rfl, carryFun, carryFun, if_pos (show i ≤ i + 1 by omega),
      if_pos (le_refl i), if_neg (show i ≠ i + 1 by omega), if_pos rfl]
  · rw [if_neg h1]
    by_cases h2 : i = c + 1
    · subst h2
      rw [if_pos rfl, carryFun, if_neg (by omega), if_neg (by omega)]
      omega
    · rw [if_neg h2, carryFun, carryFun]
      by_cases h3 : i ≤ c
      · rw [if_pos (by omega), if_pos h3, if_neg h2, if_neg h1]
      · rw [if_neg (by omega), if_neg h3, if_neg h2, if_neg h1]

theorem no_carry_exit (s : List Nat) (a d : Nat → Nat) (c k : Nat)
    (hc : c < s.length) (hpos : ∀ j, j < s.length → 0 < d j)
    (hmod : (k + 1) % tailProd d s.length (c + 1) = 0)
    (hlt : digitOf d s.length k c + 1 < d c) :
    indsList a d s.length (k + 1) = carryList a d s.length c k ∧
      idxSum s a d (k + 1) = carrySum s a d c k := by
  obtain ⟨hat, hnd⟩ := digitOf_succ_at d s.length c k hc hpos hmod hlt
  have hpoint : ∀ i, i < s.length →
      a i + digitOf d s.length (k + 1) i = carryFun a d s.length c k i := by
    intro i hi
    rcases Nat.lt_trichotomy i c with h1 | h1 | h1
    · rw [digitOf_succ_low d s.length c k i h1 hc hpos hmod hnd, carryFun,
        if_pos (by omega), if_neg (by omega), Nat.add_zero]
    · subst h1
      rw [hat, carryFun, if_pos (le_refl _), if_pos rfl, Nat.add_assoc]
    · rw [digitOf_succ_high d s.length c k i h1 hi hpos hmod, carryFun,
        if_neg (by omega), if_neg (by omega)]
  constructor
  · rw [indsList, carryList]
    exact map_range_congr _ _ _ hpoint
  · rw [idxSum, carrySum]
    apply Finset.sum_congr rfl
    intro i hi
    rw [hpoint i (Finset.mem_range.mp hi)]

/-! ### Running the carry cascade -/

theorem carryLoop_zero (ranges : List (Nat × Nat)) (dims strides : List Nat)
    (index : Nat) (indices : List Nat) :
    carryLoop ranges dims strides 0 index indices = some (index, indices) := by
  rw [carryLoop]
  split <;> rfl

theorem carryLoop_succ_true (ranges : List (Nat × Nat)) (dims strides : List Nat)
    (c' index : Nat) (indices : List Nat)
    (hcond : (ranges.getD (c' + 1) (0, 0)).2 ≤ indices.getD (c' + 1) 0) :
    carryLoop ranges dims strides (c' + 1) index indices =
      (checkedSub index (dims.getD (c' + 1) 0 * strides.getD (c' + 1) 0)).bind
        fun index' =>
          carryLoop ranges dims strides c' (index' + strides.getD c' 0)
            ((indices.set (c' + 1) (ranges.getD (c' + 1) (0, 0)).1).set c'
              (indices.getD c' 0 + 1)) := by
  rw [carryLoop, if_pos hcond]
  rfl

theorem carryLoop_succ_false (ranges : List (Nat × Nat)) (dims strides : List Nat)
    (c' index : Nat) (indices : List Nat)
    (hcond : ¬ (ranges.getD (c' + 1) (0, 0)).2 ≤ indices.getD (c' + 1) 0) :
    carryLoop ranges dims strides (c' + 1) index indices = some (index, indices) := by
  rw [carryLoop, if_neg hcond]

/-- One full run of the carry cascade from level `c`: it always succeeds, and
if the stepped counter `k + 1` is still below the total count the final state
is the canonical state for `k + 1`. -/
theorem carryLoop_run (s : List Nat) (a d : Nat → Nat)
    (hpos : ∀ i, i < s.length → 0 < d i) :
    ∀ c, c < s.length → ∀ k : Nat,
      (k + 1) % tailProd d s.length (c + 1) = 0 →
      ∃ p, carryLoop ((List.range s.length).map fun i => (a i, a i + d i))
          ((List.range s.length).map d) (stridesList s) c
          (carrySum s a d c k) (carryList a d s.length c k) = some p ∧
        (k + 1 < tailProd d s.length 0 →
          p = (idxSum s a d (k + 1), indsList a d s.length (k + 1))) := by
  intro c
  induction c with
  | zero =>
    intro hc k hmod
    refine ⟨(carrySum s a d 0 k, carryList a d s.length 0 k),
      carryLoop_zero _ _ _ _ _, ?_⟩
    intro hk1
    by_cases hcarry : d 0 ≤ digitOf d s.length k 0 + 1
    · exfalso
      have hmod0 := carry_mod_zero d s.length 0 k hc hpos hmod hcarry
      have hdvd := Nat.dvd_of_mod_eq_zero hmod0
      have := Nat.le_of_dvd (by omega) hdvd
      omega
    · obtain ⟨hL, hS⟩ := no_carry_exit s a d 0 k hc hpos hmod (by omega)
      rw [hS, hL]
  | succ c' ih =>
    intro hc k hmod
    have hc' : c' < s.length := by omega
    have hr : (((List.range s.length).map fun i => (a i, a i + d i)).getD (c' + 1)
        (0, 0)) = (a (c' + 1), a (c' + 1) + d (c' + 1)) :=
      getD_map_range _ _ _ hc _
    have hgetind : (carryList a d s.length (c' + 1) k).getD (c' + 1) 0 =
        a (c' + 1) + digitOf d s.length k (c' + 1) + 1 := by
      rw [carryList, getD_map_range _ _ _ hc, carryFun, if_pos (le_refl _), if_pos rfl]
    by_cases hcarry : d (c' + 1) ≤ digitOf d s.length k (c' + 1) + 1
    · have heqd : digitOf d s.length k (c' + 1) + 1 = d (c' + 1) := by
        have := digitOf_lt d s.length k (c' + 1) (hpos _ hc)
        omega
      have hcond : ((((List.range s.length).map fun i => (a i, a i + d i)).getD
          (c' + 1) (0, 0)).2 ≤ (carryList a d s.length (c' + 1) k).getD (c' + 1) 0) := by
        rw [hr, hgetind]
        omega
      have hdim : ((List.range s.length).map d).getD (c' + 1) 0 = d (c' + 1) :=
        getD_map_range _ _ _ hc _
      have hsum := carrySum_carry_step s a d c' k hc heqd
      have hcomm : d (c' + 1) * stD s (c' + 1) = stD s (c' + 1) * d (c' + 1) :=
        Nat.mul_comm _ _
      have hsub : checkedSub (carrySum s a d (c' + 1) k)
          (d (c' + 1) * stD s (c' + 1)) = some (baseSum s a d c' k) := by
        rw [checkedSub, if_pos (by omega)]
        have hval : carrySum s a d (c' + 1) k - d (c' + 1) * stD s (c' + 1) =
            baseSum s a d c' k := by omega
        rw [hval]
      have hmod' : (k + 1) % tailProd d s.length (c' + 1) = 0 :=
        carry_mod_zero d s.length (c' + 1) k hc hpos hmod hcarry
      obtain ⟨p, hrun, hconc⟩ := ih hc' k hmod'
      refine ⟨p, ?_, hconc⟩
      rw [carryLoop_succ_true _ _ _ _ _ _ hcond, hdim]
      show (checkedSub (carrySum s a d (c' + 1) k)
          (d (c' + 1) * (stridesList s).getD (c' + 1) 0)).bind _ = some p
      rw [show (stridesList s).getD (c' + 1) 0 = stD s (c' + 1) from rfl, hsub,
        Option.some_bind']
      rw [hr]
      show carryLoop _ _ _ c'
          (baseSum s a d c' k + (stridesList s).getD c' 0)
          (((carryList a d s.length (c' + 1) k).set (c' + 1) (a (c' + 1))).set c'
            ((carryList a d s.length (c' + 1) k).getD c' 0 + 1)) = some p
      rw [carryList_step a d s.length c' k hc,
        show (stridesList s).getD c' 0 = stD s c' from rfl,
        show baseSum s a d c' k + stD s c' = carrySum s a d c' k from
          (carrySum_eq s a d c' k hc').symm]
      exact hrun
    · obtain ⟨hL, hS⟩ := no_carry_exit s a d (c' + 1) k hc hpos hmod (by omega)
      refine ⟨(carrySum s a d (c' + 1) k, carryList a d s.length (c' + 1) k), ?_, ?_⟩
      · apply carryLoop_succ_false
        rw [hr, hgetind]
        omega
      · intro _
        rw [hS, hL]

/-! ### Running the whole copy loop -/

theorem copyLoop_succ {α : Type} (src : List α) (ranges : List (Nat × Nat))
    (dims strides : List Nat) (steps index : Nat) (indices : List Nat)
    (base_i : Nat) (out : List α) (hne : strides ≠ []) :
    copyLoop src ranges dims strides (steps + 1) index indices base_i out =
      (src.get? index).bind fun v =>
        (carryLoop ranges dims strides (strides.length - 1)
            (index + strides.getD (strides.length - 1) 0)
            (indices.set (strides.length - 1)
              (indices.getD (strides.length - 1) 0 +
                strides.getD (strides.length - 1) 0))).bind fun p =>
          match p with
          | (index2, indices2) =>
            copyLoop src ranges dims strides steps index2 indices2 (base_i + 1)
              (out.set base_i v) := by
  rw [copyLoop, if_neg (by simpa [List.isEmpty_iff] using hne)]
  rfl

/-- Full execution of the copy loop of `slice` over a valid range selection:
it succeeds, and output position `j` holds the source element at flat offset
`idxSum j`. -/
theorem copyLoop_run {α : Type} (s : List Nat) (a d : Nat → Nat) (src : List α)
    (hs : s ≠ [])
    (hvalid : ∀ i, i < s.length → a i + d i ≤ s.getD i 0)
    (hsrc : src.length = s.prod) :
    ∀ (m k : Nat) (out : List α), k + m = tailProd d s.length 0 →
      out.length = tailProd d s.length 0 →
      ∃ final, copyLoop src ((List.range s.length).map fun i => (a i, a i + d i))
          ((List.range s.length).map d) (stridesList s) m
          (idxSum s a d k) (indsList a d s.length k) k out = some final ∧
        final.length = tailProd d s.length 0 ∧
        (∀ j, j < k → final.get? j = out.get? j) ∧
        (∀ j, k ≤ j → j < tailProd d s.length 0 →
          final.get? j = src.get? (idxSum s a d j)) := by
  intro m
  induction m with
  | zero =>
    intro k out hk hout
    refine ⟨out, rfl, hout, fun j _ => rfl, fun j hjk hjN => ?_⟩
    omega
  | succ m ihm =>
    intro k out hk hout
    have hN : 0 < tailProd d s.length 0 := by omega
    have hpos := radix_pos_of_total_pos d s.length hN
    have hklt : k < tailProd d s.length 0 := by omega
    have hR1 : 1 ≤ s.length := List.length_pos.mpr hs
    have hstne : stridesList s ≠ [] := stridesList_ne_nil hs
    have hstlen : (stridesList s).length = s.length := stridesList_length s
    have hidxlt : ∀ j, j < tailProd d s.length 0 → idxSum s a d j < src.length := by
      intro j hj
      rw [hsrc, idxSum]
      have hcong : (∑ i in Finset.range s.length,
          stD s i * (a i + digitOf d s.length j i)) =
          ∑ i in Finset.range s.length,
            (s.drop (i + 1)).prod * (a i + digitOf d s.length j i) :=
        Finset.sum_congr rfl fun i hi => by
          rw [stD, stridesList_getD s i (Finset.mem_range.mp hi)]
      rw [hcong]
      apply sum_stride_lt_prod
      intro i hi
      have hd := hpos i hi
      have hdig := digitOf_lt d s.length j i hd
      have := hvalid i hi
      omega
    have hvsome := List.get?_eq_get (hidxlt k hklt)
    have hentry_idx : idxSum s a d k + (stridesList s).getD (s.length - 1) 0 =
        carrySum s a d (s.length - 1) k := by
      rw [stridesList_last s hs, carrySum_top s a d k hs]
    have hentry_list : (indsList a d s.length k).set (s.length - 1)
        ((indsList a d s.length k).getD (s.length - 1) 0 +
          (stridesList s).getD (s.length - 1) 0) =
        carryList a d s.length (s.length - 1) k := by
      rw [stridesList_last s hs]
      exact carryList_entry a d s.length k hR1
    have hmod : (k + 1) % tailProd d s.length ((s.length - 1) + 1) = 0 := by
      rw [show s.length - 1 + 1 = s.length from by omega, tailProd_last]
      exact Nat.mod_one _
    obtain ⟨p, hcarry, hpconc⟩ :=
      carryLoop_run s a d hpos (s.length - 1) (by omega) k hmod
    rcases Nat.lt_or_ge (k + 1) (tailProd d s.length 0) with hk1 | hk1
    · have hp := hpconc hk1
      obtain ⟨final, hrun, hlen, hlow, hhigh⟩ := ihm (k + 1) (out.set k (src.get
          ⟨idxSum s a d k, hidxlt k hklt⟩)) (by omega)
          (by rw [List.length_set]; exact hout)
      refine ⟨final, ?_, hlen, ?_, ?_⟩
      · rw [copyLoop_succ _ _ _ _ _ _ _ _ _ hstne, hvsome, Option.some_bind',
          hstlen, hentry_idx, hentry_list, hcarry, Option.some_bind', hp]
        exact hrun
      · intro j hj
        rw [hlow j (by omega), List.get?_set_ne _ _ (by omega)]
      · intro j hjk hjN
        rcases Nat.eq_or_lt_of_le hjk with hje | hjl
        · rw [← hje, hlow k (by omega), List.get?_set_eq_of_lt _ (by omega), hvsome]
        · exact hhigh j (by omega) hjN
    · have hm0 : m = 0 := by omega
      subst hm0
      refine ⟨out.set k (src.get ⟨idxSum s a d k, hidxlt k hklt⟩), ?_,
        by rw [List.length_set]; exact hout, ?_, ?_⟩
      · rw [copyLoop_succ _ _ _ _ _ _ _ _ _ hstne, hvsome, Option.some_bind',
          hstlen, hentry_idx, hentry_list, hcarry, Option.some_bind']
        rfl
      · intro j hj
        rw [List.get?_set_ne _ _ (by omega)]
      · intro j hjk hjN
        have hje : j = k := by omega
        rw [hje, List.get?_set_eq_of_lt _ (by omega), hvsome]

/-! ### Full-range slicing is the identity (C9) -/

theorem listEqMapRange (l : List Nat) :
    (List.range l.length).map (fun i => l.getD i 0) = l := by
  apply List.ext_getElem
  · simp
  · intro i h1 h2
    simp only [List.getElem_map, List.getElem_range]
    rw [List.getD_eq_getElem _ _ h2]

theorem foldl_add_eq_sum (g : Nat → Nat) :
    ∀ n : Nat, (List.range n).foldl (fun acc si => acc + g si) 0 =
      ∑ i in Finset.range n, g i := by
  have hgen : ∀ (n init : Nat),
      (List.range n).foldl (fun acc si => acc + g si) init =
        init + ∑ i in Finset.range n, g i := by
    intro n
    induction n with
    | zero => intro init; simp
    | succ m ih =>
      intro init
      rw [List.range_succ, List.foldl_append, ih, Finset.sum_range_succ]
      simp [Nat.add_assoc]
  intro n
  rw [hgen, Nat.zero_add]

theorem cons_map_range {β : Type} (g : Nat → β) (m : Nat) :
    (List.range (m + 1)).map g = g 0 :: (List.range m).map (fun i => g (i + 1)) := by
  rw [List.range_succ_eq_map, List.map_cons, List.map_map]
  rfl

theorem buildGo_full {α : Type} (t : Tensor α) (newaxes : List Nat) :
    ∀ (n q : Nat),
      Tensor.buildGo t newaxes (List.replicate n AxisIndex.Full) q =
        some ((List.range n).map fun i => (0, t.shape.getD (q + i) 0),
          (List.range n).map (fun i => t.shape.getD (q + i) 0),
          (List.range n).map (fun _ => 0),
          ((List.range n).map fun i =>
            (isizeWrap (t.shape.getD (q + i) 0) ::
              List.replicate (newaxes.getD (q + i + 1) 0) (1 : Int))).join) := by
  intro n
  induction n with
  | zero =>
    intro q
    simp [Tensor.buildGo]
  | succ m ih =>
    intro q
    rw [List.replicate_succ]
    have step : Tensor.buildGo t newaxes
        (AxisIndex.Full :: List.replicate m AxisIndex.Full) q =
        (checkedSub (t.shape.getD q 0) 0).bind fun dd =>
          (Tensor.buildGo t newaxes (List.replicate m AxisIndex.Full) (q + 1)).bind
            fun r =>
              match r with
              | (ranges, dims, inds, shape) =>
                some ((0, t.shape.getD q 0) :: ranges, dd :: dims, 0 :: inds,
                  [isizeWrap dd] ++
                    List.replicate (newaxes.getD (q + 1) 0) (1 : Int) ++ shape) := rfl
    rw [step,
      show checkedSub (t.shape.getD q 0) 0 = some (t.shape.getD q 0) from by
        rw [checkedSub, if_pos (Nat.zero_le _), Nat.sub_zero],
      Option.some_bind', ih (q + 1), Option.some_bind']
    have h1 : (List.range (m + 1)).map (fun i => ((0 : Nat), t.shape.getD (q + i) 0)) =
        (0, t.shape.getD q 0) ::
          (List.range m).map fun i => ((0 : Nat), t.shape.getD (q + 1 + i) 0) := by
      rw [cons_map_range]
      congr 1
      apply List.map_congr_left
      intro i _
      rw [show q + (i + 1) = q + 1 + i from by omega]
    have h2 : (List.range (m + 1)).map (fun i => t.shape.getD (q + i) 0) =
        t.shape.getD q 0 ::
          (List.range m).map fun i => t.shape.getD (q + 1 + i) 0 := by
      rw [cons_map_range]
      congr 1
      apply List.map_congr_left
      intro i _
      rw [show q + (i + 1) = q + 1 + i from by omega]
    have h3 : (List.range (m + 1)).map (fun _ : Nat => (0 : Nat)) =
        0 :: (List.range m).map (fun _ : Nat => (0 : Nat)) := by
      rw [cons_map_range]
    have h4 : ((List.range (m + 1)).map fun i =>
          (isizeWrap (t.shape.getD (q + i) 0) ::
            List.replicate (newaxes.getD (q + i + 1) 0) (1 : Int))).join =
        (isizeWrap (t.shape.getD q 0) ::
            List.replicate (newaxes.getD (q + 1) 0) (1 : Int)) ++
          ((List.range m).map fun i =>
            (isizeWrap (t.shape.getD (q + 1 + i) 0) ::
              List.replicate (newaxes.getD (q + 1 + i + 1) 0) (1 : Int))).join := by
      rw [cons_map_range,
        show ∀ (x : List Int) (l : List (List Int)), (x :: l).join = x ++ l.join
          from fun x l => rfl]
      congr 1
      apply congrArg List.join
      apply List.map_congr_left
      intro i _
      rw [show q + (i + 1) = q + 1 + i from by omega]
    rw [h1, h2, h3, h4]
    simp

theorem digitOf_zero (d : Nat → Nat) (R i : Nat) : digitOf d R 0 i = 0 := by
  rw [digitOf, Nat.zero_div, Nat.zero_mod]

/-- The flat offset of the full-range copy at step `j` is `j` itself. -/
theorem idxSum_full_id (s : List Nat) (j : Nat) (hj : j < s.prod) :
    idxSum s (fun _ => 0) (fun i => s.getD i 0) j = j := by
  rw [idxSum]
  have htp : ∀ i, tailProd (fun i => s.getD i 0) s.length (i + 1) =
      (s.drop (i + 1)).prod := by
    intro i
    rw [tailProd, listEqMapRange]
  have hcong : ∀ i ∈ Finset.range s.length,
      stD s i * ((fun _ => (0 : Nat)) i + digitOf (fun i => s.getD i 0) s.length j i) =
        (s.drop (i + 1)).prod * ((j / (s.drop (i + 1)).prod) % s.getD i 0) := by
    intro i hi
    rw [stD, stridesList_getD s i (Finset.mem_range.mp hi), digitOf, htp i,
      Nat.zero_add]
  rw [Finset.sum_congr rfl hcong]
  exact sum_digit_expansion s j hj

/-- `slice` on a request that expands to one `Full` per axis (plus any
`NewAxis` insertions recorded in `newaxes`) copies the data unchanged and
reshapes it to the interleaved output shape. -/
theorem slice_expand_full_reshaped {α : Type} [Zero α] (data : List α)
    (s : List Nat) (sp : List AxisIndex) (newaxes : List Nat)
    (hInv : (Tensor.mk data s).Inv) (hR : 1 ≤ s.length)
    (hexp : (Tensor.mk data s).expand_slices sp =
      some (List.replicate s.length AxisIndex.Full, newaxes)) :
    (Tensor.mk data s).slice sp =
      Tensor.reshaped (Tensor.mk data s)
        (List.replicate (newaxes.getD 0 0) (1 : Int) ++
          ((List.range s.length).map fun i =>
            (isizeWrap (s.getD (0 + i) 0) ::
              List.replicate (newaxes.getD (0 + i + 1) 0) (1 : Int))).join) := by
  have hs : s ≠ [] := by
    intro hc
    rw [hc] at hR
    simp at hR
  have hInv' : data.length = shape_product s := hInv
  have hN : tailProd (fun i => s.getD i 0) s.length 0 = s.prod := by
    rw [tailProd, List.drop_zero, listEqMapRange]
  rw [slice_eq, hexp, Option.some_bind']
  show (Tensor.buildGo (Tensor.mk data s) newaxes
      (List.replicate s.length AxisIndex.Full) 0).bind _ = _
  rw [buildGo_full, Option.some_bind']
  show (copyLoop data
      ((List.range s.length).map fun i => (0, s.getD (0 + i) 0))
      ((List.range s.length).map fun i => s.getD (0 + i) 0)
      (stridesList s)
      (Tensor.zeros ((List.range s.length).map fun i => s.getD (0 + i) 0) :
        Tensor α).data.length
      ((List.range (stridesList s).length).foldl
        (fun acc si => acc + (stridesList s).getD si 0 *
          ((List.range s.length).map fun _ : Nat => (0 : Nat)).getD si 0) 0)
      ((List.range s.length).map fun _ : Nat => (0 : Nat)) 0
      (Tensor.zeros ((List.range s.length).map fun i => s.getD (0 + i) 0) :
        Tensor α).data).bind _ = _
  have hr1 : ((List.range s.length).map fun i => ((0 : Nat), s.getD (0 + i) 0)) =
      (List.range s.length).map fun i => ((0 : Nat), 0 + s.getD i 0) :=
    map_range_congr _ _ _ fun i _ => by simp
  have hr2 : ((List.range s.length).map fun i => s.getD (0 + i) 0) =
      (List.range s.length).map fun i => s.getD i 0 :=
    map_range_congr _ _ _ fun i _ => by rw [Nat.zero_add]
  have hdims : ((List.range s.length).map fun i => s.getD i 0) = s := listEqMapRange s
  have hinds : ((List.range s.length).map fun _ : Nat => (0 : Nat)) =
      indsList (fun _ => 0) (fun i => s.getD i 0) s.length 0 :=
    (map_range_congr _ _ _ fun i _ => by
      rw [digitOf_zero]).symm
  have hsteps : (Tensor.zeros s : Tensor α).data.length =
      tailProd (fun i => s.getD i 0) s.length 0 := by
    show (List.replicate (shape_product s) (0 : α)).length = _
    rw [List.length_replicate, shape_product_eq_prod, hN]
  have hidx0 : ((List.range (stridesList s).length).foldl
      (fun acc si => acc + (stridesList s).getD si 0 *
        ((List.range s.length).map fun _ : Nat => (0 : Nat)).getD si 0) 0) =
      idxSum s (fun _ => 0) (fun i => s.getD i 0) 0 := by
    rw [foldl_add_eq_sum, stridesList_length, idxSum]
    apply Finset.sum_congr rfl
    intro i hi
    rw [getD_map_range _ _ _ (Finset.mem_range.mp hi), digitOf_zero]
    simp [stD]
  rw [hr2, hdims, hr1, hsteps, hidx0, hinds]
  have hvalid : ∀ i, i < s.length →
      (fun _ : Nat => (0 : Nat)) i + (fun i => s.getD i 0) i ≤ s.getD i 0 := by
    intro i _
    simp
  have hsrc : data.length = s.prod := by rw [hInv', shape_product_eq_prod]
  obtain ⟨final, hrun, hlen, _, hhigh⟩ :=
    copyLoop_run s (fun _ => 0) (fun i => s.getD i 0) data hs hvalid hsrc
      (tailProd (fun i => s.getD i 0) s.length 0) 0
      (Tensor.zeros s : Tensor α).data (by omega) hsteps
  rw [hdims] at hrun
  rw [hrun, Option.some_bind']
  have hfinal : final = data := by
    apply List.ext_get?
    intro n
    by_cases hn : n < tailProd (fun i => s.getD i 0) s.length 0
    · rw [hhigh n (Nat.zero_le n) hn,
        idxSum_full_id s n (by rw [← hN]; exact hn)]
    · rw [List.get?_eq_none.mpr (by omega), List.get?_eq_none.mpr (by
        rw [hsrc, ← hN]; omega)]
  rw [hfinal]

/-- Claim C10: slicing a rank-2 tensor of shape `[a, b]` with
`[NewAxis, Ellipsis, NewAxis]` yields shape `[1, a, b, 1]` with the same data
in the same order.  (Per the data model each dimension is below `2 ^ 63`, so
the wrapping `as isize` cast keeps it nonnegative, and the element count
`a * b` fits in `usize`, so the debug-build product computations do not
overflow.) -/
theorem slice_newaxis_ellipsis_newaxis {α : Type} [Zero α] (a b : Nat)
    (data : List α) (hlen : data.length = a * b)
    (ha : a < 2 ^ 63) (hb : b < 2 ^ 63) (hab : a * b < 2 ^ 64) :
    (Tensor.mk data [a, b]).slice
      [AxisIndex.NewAxis, AxisIndex.Ellipsis, AxisIndex.NewAxis] =
      some (Tensor.mk data [1, a, b, 1]) := by
  have hInv : (Tensor.mk data [a, b]).Inv := by
    show data.length = shape_product [a, b]
    rw [hlen]
    show a * b = 1 * a * b
    ring
  have hexp : (Tensor.mk data [a, b]).expand_slices
      [AxisIndex.NewAxis, AxisIndex.Ellipsis, AxisIndex.NewAxis] =
      some (List.replicate 2 AxisIndex.Full, [1, 0, 1]) := rfl
  rw [slice_expand_full_reshaped data [a, b] _ [1, 0, 1] hInv (by norm_num) hexp]
  have hshape : (List.replicate (([1, 0, 1] : List Nat).getD 0 0) (1 : Int) ++
      ((List.range ([a, b] : List Nat).length).map fun i =>
        (isizeWrap (([a, b] : List Nat).getD (0 + i) 0) ::
          List.replicate (([1, 0, 1] : List Nat).getD (0 + i + 1) 0)
            (1 : Int))).join) = [1, (a : Int), (b : Int), 1] := by
    show [(1 : Int), isizeWrap a, isizeWrap b, 1] = [1, (a : Int), (b : Int), 1]
    rw [isizeWrap_eq_ofNat ha, isizeWrap_eq_ofNat hb]
  rw [hshape]
  have hcount : ([1, (a : Int), (b : Int), 1] : List Int).count (-1) = 0 := by
    rw [List.count_eq_zero]
    intro hmem
    simp only [List.mem_cons, List.not_mem_nil, or_false] at hmem
    rcases hmem with h | h | h | h <;> omega
  have hwrap : (([1, (a : Int), (b : Int), 1] : List Int).map usizeWrap) =
      [1, a, b, 1] := by
    show [usizeWrap 1, usizeWrap (a : Int), usizeWrap (b : Int), usizeWrap 1] =
      [1, a, b, 1]
    rw [usizeWrap_eq_toNat (by norm_num) (by norm_num),
      usizeWrap_eq_toNat (by positivity)
        (by exact_mod_cast (show a < 2 ^ 64 from by omega)),
      usizeWrap_eq_toNat (by positivity)
        (by exact_mod_cast (show b < 2 ^ 64 from by omega))]
    rfl
  rw [Tensor.reshaped, convert_shape_no_wildcard _ _ hcount (by
    intro k hk
    rw [hwrap]
    have hk4 : k ≤ 4 := hk
    interval_cases k <;> simp [List.take, List.prod_cons] <;> omega),
    option_bind_some]
  rw [hwrap]
  rw [if_pos (show (Tensor.mk data [a, b]).size =
      ([1, a, b, 1] : List Nat).foldl (fun acc item => acc * item) 1 from by
    show data.length = 1 * 1 * a * b * 1
    rw [hlen]
    ring)]
  rfl

/-- Witness for C10 on a concrete `[2, 3]` tensor. -/
theorem slice_newaxis_ellipsis_newaxis_witness :
    ([10, 11, 12, 13, 14, 15] : List Nat).length = 2 * 3 ∧
    (Tensor.mk ([10, 11, 12, 13, 14, 15] : List Nat) [2, 3]).slice
      [AxisIndex.NewAxis, AxisIndex.Ellipsis, AxisIndex.NewAxis] =
      some (Tensor.mk ([10, 11, 12, 13, 14, 15] : List Nat) [1, 2, 3, 1]) :=
  ⟨by decide,
   slice_newaxis_ellipsis_newaxis 2 3 ([10, 11, 12, 13, 14, 15] : List Nat)
     (by decide) (by decide) (by decide) (by decide)⟩

/-! ### The documented slicing examples (C2) -/

/-- A fully concrete slicing scenario: once `expand_slices` and the per-axis
range resolution are evaluated, the copy loop runs over the ranges
`[a i, a i + d i)` and the result is reshaped to `outShape`. -/
theorem slice_concrete_shape {α : Type} [Zero α] (data : List α) (s : List Nat)
    (sp slices : List AxisIndex) (newaxes : List Nat)
    (ranges : List (Nat × Nat)) (dims inds : List Nat) (shapeTail : List Int)
    (a d : Nat → Nat) (outShape : List Nat)
    (hsrc : data.length = s.prod) (hs : s ≠ [])
    (hexp : (Tensor.mk data s).expand_slices sp = some (slices, newaxes))
    (hbuild : Tensor.buildGo (Tensor.mk data s) newaxes slices 0 =
      some (ranges, dims, inds, shapeTail))
    (hranges : ranges = (List.range s.length).map fun i => (a i, a i + d i))
    (hdims : dims = (List.range s.length).map d)
    (hvalid : ∀ i, i < s.length → a i + d i ≤ s.getD i 0)
    (hinds : inds = indsList a d s.length 0)
    (hsteps : (Tensor.zeros dims : Tensor α).data.length = tailProd d s.length 0)
    (hidx0 : (List.range (stridesList s).length).foldl
        (fun acc si => acc + (stridesList s).getD si 0 * inds.getD si 0) 0 =
      idxSum s a d 0)
    (hshape : List.replicate (newaxes.getD 0 0) (1 : Int) ++ shapeTail =
      outShape.map Int.ofNat)
    (hcount : (outShape.map Int.ofNat).count (-1) = 0)
    (hbound : ∀ k, k ≤ (outShape.map Int.ofNat).length →
      (((outShape.map Int.ofNat).map usizeWrap).take k).prod < 2 ^ 64)
    (hwrap : (outShape.map Int.ofNat).map usizeWrap = outShape)
    (hprod : tailProd d s.length 0 =
      outShape.foldl (fun acc item => acc * item) 1) :
    ((Tensor.mk data s).slice sp).map Tensor.shape = some outShape := by
  rw [slice_eq, hexp, Option.some_bind']
  show ((Tensor.buildGo (Tensor.mk data s) newaxes slices 0).bind _).map _ = _
  rw [hbuild, Option.some_bind']
  obtain ⟨final, hrun, hlen, _, _⟩ :=
    copyLoop_run s a d data hs hvalid hsrc (tailProd d s.length 0) 0
      (Tensor.zeros dims : Tensor α).data (by omega) hsteps
  rw [← hranges, ← hinds, ← hidx0, ← hsteps, ← hdims] at hrun
  show ((copyLoop data ranges dims (stridesList s)
      (Tensor.zeros dims : Tensor α).data.length
      ((List.range (stridesList s).length).foldl
        (fun acc si => acc + (stridesList s).getD si 0 * inds.getD si 0) 0)
      inds 0 (Tensor.zeros dims : Tensor α).data).bind _).map _ = _
  rw [hrun, Option.some_bind', hshape, Tensor.reshaped,
    convert_shape_no_wildcard _ _ hcount hbound, option_bind_some, hwrap]
  rw [if_pos (show (Tensor.mk final dims).size =
      outShape.foldl (fun acc item => acc * item) 1 from by
    show final.length = _
    rw [hlen, hprod])]
  rfl

/-- Claim C2: the three documented slicing examples on a `[2, 3, 4]` tensor:
`[Ellipsis, Slice(1,3)]` gives shape `[2, 3, 2]`, `[Index(-1)]` gives shape
`[3, 4]`, and `[Full, SliceFrom(1), Index(1)]` gives shape `[2, 2]`. -/
theorem slice_doc_examples {α : Type} [Zero α] (data : List α)
    (hlen : data.length = 24) :
    ((Tensor.mk data [2, 3, 4]).slice
        [AxisIndex.Ellipsis, AxisIndex.Slice 1 3]).map Tensor.shape =
      some [2, 3, 2] ∧
    ((Tensor.mk data [2, 3, 4]).slice [AxisIndex.Index (-1)]).map Tensor.shape =
      some [3, 4] ∧
    ((Tensor.mk data [2, 3, 4]).slice
        [AxisIndex.Full, AxisIndex.SliceFrom 1, AxisIndex.Index 1]).map
      Tensor.shape = some [2, 2] := by
  have hsrc : data.length = ([2, 3, 4] : List Nat).prod := by rw [hlen]; rfl
  refine ⟨?_, ?_, ?_⟩
  · exact slice_concrete_shape data [2, 3, 4]
      [AxisIndex.Ellipsis, AxisIndex.Slice 1 3]
      [AxisIndex.Full, AxisIndex.Full, AxisIndex.Slice 1 3] [0, 0, 0, 0]
      [(0, 2), (0, 3), (1, 3)] [2, 3, 2] [0, 0, 1] [2, 3, 2]
      (fun i => [0, 0, 1].getD i 0) (fun i => [2, 3, 2].getD i 0) [2, 3, 2]
      hsrc (by decide) rfl
      (by simp [Tensor.buildGo, Tensor.resolve_axis, checkedIAdd, checkedAdd,
        checkedSub, isizeWrap, usizeWrap])
      (by decide) (by decide) (by decide) (by decide)
      (by rw [show (Tensor.zeros [2, 3, 2] : Tensor α).data.length =
          shape_product [2, 3, 2] from List.length_replicate _ _]; decide)
      (by decide) (by decide) (by decide) (by decide) (by decide) (by decide)
  · exact slice_concrete_shape data [2, 3, 4]
      [AxisIndex.Index (-1)]
      [AxisIndex.Index (-1), AxisIndex.Full, AxisIndex.Full] [0, 0, 0, 0]
      [(1, 2), (0, 3), (0, 4)] [1, 3, 4] [1, 0, 0] [3, 4]
      (fun i => [1, 0, 0].getD i 0) (fun i => [1, 3, 4].getD i 0) [3, 4]
      hsrc (by decide) rfl
      (by simp [Tensor.buildGo, Tensor.resolve_axis, checkedIAdd, checkedAdd,
        checkedSub, isizeWrap, usizeWrap])
      (by decide) (by decide) (by decide) (by decide)
      (by rw [show (Tensor.zeros [1, 3, 4] : Tensor α).data.length =
          shape_product [1, 3, 4] from List.length_replicate _ _]; decide)
      (by decide) (by decide) (by decide) (by decide) (by decide) (by decide)
  · exact slice_concrete_shape data [2, 3, 4]
      [AxisIndex.Full, AxisIndex.SliceFrom 1, AxisIndex.Index 1]
      [AxisIndex.Full, AxisIndex.SliceFrom 1, AxisIndex.Index 1] [0, 0, 0, 0]
      [(0, 2), (1, 3), (1, 2)] [2, 2, 1] [0, 1, 1] [2, 2]
      (fun i => [0, 1, 1].getD i 0) (fun i => [2, 2, 1].getD i 0) [2, 2]
      hsrc (by decide) rfl
      (by simp [Tensor.buildGo, Tensor.resolve_axis, checkedIAdd, checkedAdd,
        checkedSub, isizeWrap, usizeWrap])
      (by decide) (by decide) (by decide) (by decide)
      (by rw [show (Tensor.zeros [2, 2, 1] : Tensor α).data.length =
          shape_product [2, 2, 1] from List.length_replicate _ _]; decide)
      (by decide) (by decide) (by decide) (by decide) (by decide) (by decide)

/-- Witness for C2 on concrete data. -/
theorem slice_doc_examples_witness :
    ((List.range 24 : List Nat).length = 24) ∧
    ((Tensor.mk (List.range 24 : List Nat) [2, 3, 4]).slice
        [AxisIndex.Ellipsis, AxisIndex.Slice 1 3]).map Tensor.shape =
      some [2, 3, 2] :=
  ⟨by decide,
   (slice_doc_examples (List.range 24 : List Nat) (by decide)).1⟩


theorem unravelGo_two (x y i : Nat) (hx : x ≠ 0) (hy : y ≠ 0) :
    Tensor.unravelGo [x, y] i = some [i / x, i % x / y] := by
  show (if x = 0 then none else do
      let tail ← Tensor.unravelGo [y] (i % x)
      pure (i / x :: tail)) = some [i / x, i % x / y]
  rw [if_neg hx]
  have h2 : Tensor.unravelGo [y] (i % x) = some [i % x / y] := by
    show (if y = 0 then none else do
        let tail ← Tensor.unravelGo ([] : List Nat) (i % x % y)
        pure (i % x / y :: tail)) = some [i % x / y]
    rw [if_neg hy]
    rfl
  rw [h2]
  rfl

theorem swap_pos_bound (r c i : Nat) (hc : 0 < c) (hi : i < r * c) :
    r * (i % c) + i / c < c * r := by
  have h1 : i % c < c := Nat.mod_lt i hc
  have h2 : i / c < r := Nat.div_lt_of_lt_mul (by rw [Nat.mul_comm c r]; exact hi)
  calc r * (i % c) + i / c < r * (i % c) + r := by omega
    _ = r * (i % c + 1) := by ring
    _ ≤ r * c := Nat.mul_le_mul (Nat.le_refl r) (by omega)
    _ = c * r := Nat.mul_comm r c

theorem swap_pos_cancel (r c j : Nat) (hc : 0 < c) (hj : j < c * r) :
    r * ((c * (j % r) + j / r) % c) + (c * (j % r) + j / r) / c = j := by
  have hjr : j / r < c := Nat.div_lt_of_lt_mul (by rw [Nat.mul_comm r c]; exact hj)
  rw [Nat.mul_add_mod, Nat.mod_eq_of_lt hjr, Nat.mul_add_div hc,
    Nat.div_eq_of_lt hjr, Nat.add_zero]
  exact Nat.div_add_mod j r

theorem foldlM_set_range {α : Type} (step : Tensor α → Nat → Option (Tensor α))
    (sh2 : List Nat) (L : Nat) (p : Nat → Nat) (val : Nat → α) :
    ∀ n : Nat,
      (∀ i, i < n → p i < L) →
      (∀ i j, i < n → j < n → p i = p j → i = j) →
      (∀ (acc : Tensor α) (i : Nat), i < n → acc.shape = sh2 →
        acc.data.length = L →
        step acc i = some ⟨acc.data.set (p i) (val i), sh2⟩) →
      ∀ t0 : Tensor α, t0.shape = sh2 → t0.data.length = L →
        ∃ res : Tensor α, (List.range n).foldlM step t0 = some res ∧
          res.shape = sh2 ∧ res.data.length = L ∧
          ∀ i, i < n → res.data.get? (p i) = some (val i) := by
  intro n
  induction n with
  | zero =>
    intro _ _ _ t0 hsh hL
    exact ⟨t0, rfl, hsh, hL, fun i hi => absurd hi (Nat.not_lt_zero i)⟩
  | succ n ih =>
    intro hp hinj hstep t0 hsh hL
    obtain ⟨res, hrun, hrsh, hrL, hset⟩ :=
      ih (fun i hi => hp i (Nat.lt_succ_of_lt hi))
        (fun i j hi hj => hinj i j (Nat.lt_succ_of_lt hi) (Nat.lt_succ_of_lt hj))
        (fun acc i hi => hstep acc i (Nat.lt_succ_of_lt hi)) t0 hsh hL
    have hstepn := hstep res n (Nat.lt_succ_self n) hrsh hrL
    refine ⟨⟨res.data.set (p n) (val n), sh2⟩, ?_, rfl, ?_, ?_⟩
    · rw [List.range_succ, List.foldlM_append, hrun, option_bind_some]
      show List.foldlM step res [n] = some (⟨res.data.set (p n) (val n), sh2⟩ : Tensor α)
      rw [List.foldlM_cons, hstepn, option_bind_some]
      rfl
    · show (res.data.set (p n) (val n)).length = L
      rw [List.length_set]
      exact hrL
    · intro i hi
      show (res.data.set (p n) (val n)).get? (p i) = some (val i)
      rcases Nat.lt_succ_iff_lt_or_eq.mp hi with hlt | heq
      · have hne2 : p n ≠ p i := fun hcon =>
          absurd (hinj n i (Nat.lt_succ_self n) (Nat.lt_succ_of_lt hlt) hcon)
            (by omega)
        rw [List.get?_set_ne _ _ hne2]
        exact hset i hlt
      · subst heq
        rw [List.get?_set_eq_of_lt _ (by rw [hrL]; exact hp _ (Nat.lt_succ_self _))]

theorem swapaxes2_get {α : Type} [Zero α] (data : List α) (r c : Nat)
    (hlen : data.length = r * c) :
    ∃ res : Tensor α, (Tensor.mk data [r, c]).swapaxes 0 1 = some res ∧
      res.shape = [c, r] ∧ res.data.length = c * r ∧
      ∀ j, j < c * r → res.data.get? j = data.get? (c * (j % r) + j / r) := by
  have hguard : (0 : Nat) < (Tensor.mk data [r, c] : Tensor α).ndim ∧
      (1 : Nat) < (Tensor.mk data [r, c] : Tensor α).ndim ∧ (0 : Nat) ≠ 1 := by
    refine ⟨?_, ?_, ?_⟩
    · change (0 : Nat) < 2; omega
    · change (1 : Nat) < 2; omega
    · omega
  have hunf : (Tensor.mk data [r, c] : Tensor α).swapaxes 0 1 =
      (List.range (r * c)).foldlM
        (fun acc i => do
          let ii ← (Tensor.mk data [r, c] : Tensor α).unravel_index i
          let ii' := Tensor.swapPos ii 0 1
          let v ← (Tensor.mk data [r, c] : Tensor α).data.get? i
          Tensor.indexSet acc ii' v)
        (Tensor.zeros [c, r]) := by
    rw [Tensor.swapaxes, if_pos hguard,
      show (Tensor.mk data [r, c] : Tensor α).size = r * c from hlen]
    rfl
  by_cases hrc : 0 < r * c
  · have hr : 0 < r := by
      rcases Nat.eq_zero_or_pos r with h | h
      · rw [h, Nat.zero_mul] at hrc; omega
      · exact h
    have hc : 0 < c := by
      rcases Nat.eq_zero_or_pos c with h | h
      · rw [h, Nat.mul_zero] at hrc; omega
      · exact h
    have hne : data ≠ [] := by
      intro h
      rw [h] at hlen
      simp only [List.length_nil] at hlen
      omega
    have hp : ∀ i, i < r * c → r * (i % c) + i / c < c * r :=
      fun i hi => swap_pos_bound r c i hc hi
    have hinj : ∀ i j, i < r * c → j < r * c →
        r * (i % c) + i / c = r * (j % c) + j / c → i = j := by
      intro i j hi hj heq
      have hci := swap_pos_cancel c r i hr hi
      have hcj := swap_pos_cancel c r j hr hj
      rw [← hci, ← hcj, heq]
    have hstep : ∀ (acc : Tensor α) (i : Nat), i < r * c → acc.shape = [c, r] →
        acc.data.length = c * r →
        (do
          let ii ← (Tensor.mk data [r, c] : Tensor α).unravel_index i
          let ii' := Tensor.swapPos ii 0 1
          let v ← (Tensor.mk data [r, c] : Tensor α).data.get? i
          Tensor.indexSet acc ii' v) =
        some ⟨acc.data.set (r * (i % c) + i / c) (data.getD i (data.head hne)), [c, r]⟩ := by
      intro acc i hi hash haL
      obtain ⟨accd, accs⟩ := acc
      change accs = [c, r] at hash
      subst hash
      change accd.length = c * r at haL
      have hun : (Tensor.mk data [r, c] : Tensor α).unravel_index i =
          some [i / c, i % c] := by
        show Tensor.unravelGo (stridesList [r, c]) i = some [i / c, i % c]
        rw [show stridesList [r, c] = [1 * c, 1] from rfl,
          unravelGo_two (1 * c) 1 i (by omega) one_ne_zero,
          Nat.one_mul, Nat.div_one]
      have hilen : i < data.length := by rw [hlen]; exact hi
      have hv : (Tensor.mk data [r, c] : Tensor α).data.get? i =
          some (data.getD i (data.head hne)) := by
        show data.get? i = some (data.getD i (data.head hne))
        rw [List.get?_eq_get hilen, List.get_eq_getElem,
          List.getD_eq_getElem _ _ hilen]
      rw [hun, option_bind_some]
      show (do
          let v ← (Tensor.mk data [r, c] : Tensor α).data.get? i
          Tensor.indexSet (Tensor.mk accd [c, r])
            (Tensor.swapPos [i / c, i % c] 0 1) v) =
        some (Tensor.mk (accd.set (r * (i % c) + i / c)
          (data.getD i (data.head hne))) [c, r])
      rw [hv, option_bind_some]
      show Tensor.indexSet (Tensor.mk accd [c, r]) [i % c, i / c]
          (data.getD i (data.head hne)) =
        some (Tensor.mk (accd.set (r * (i % c) + i / c)
          (data.getD i (data.head hne))) [c, r])
      have hm : i % c < c := Nat.mod_lt i hc
      have hd : i / c < r := Nat.div_lt_of_lt_mul (by rw [Nat.mul_comm c r]; exact hi)
      have hcond : ([i % c, i / c] : List Nat).length =
          (Tensor.mk accd [c, r] : Tensor α).ndim ∧
          ((([i % c, i / c] : List Nat).zip
            (Tensor.mk accd [c, r] : Tensor α).shape).all
            fun p => p.1 < p.2) = true := by
        refine ⟨rfl, ?_⟩
        show (([(i % c, c), (i / c, r)] : List (Nat × Nat)).all
          fun p => p.1 < p.2) = true
        simp only [List.all_cons, List.all_nil, Bool.and_true, Bool.and_eq_true,
          decide_eq_true_eq]
        exact ⟨hm, hd⟩
      rw [Tensor.indexSet, if_pos hcond]
      have hrav : (Tensor.mk accd [c, r] : Tensor α).ravel_index [i % c, i / c] =
          some (r * (i % c) + i / c) := by
        show some (0 + 1 * r * (i % c) + 1 * (i / c)) = some (r * (i % c) + i / c)
        congr 1
        ring
      rw [hrav, option_bind_some]
      show (if r * (i % c) + i / c < accd.length then
          some (Tensor.mk (accd.set (r * (i % c) + i / c)
            (data.getD i (data.head hne))) [c, r])
        else none) =
        some (Tensor.mk (accd.set (r * (i % c) + i / c)
          (data.getD i (data.head hne))) [c, r])
      rw [if_pos (show r * (i % c) + i / c < accd.length from by
        rw [haL]; exact hp i hi)]
    have hzL : (Tensor.zeros [c, r] : Tensor α).data.length = c * r := by
      show (List.replicate (shape_product [c, r]) (0 : α)).length = c * r
      rw [List.length_replicate]
      show 1 * c * r = c * r
      rw [Nat.one_mul]
    obtain ⟨res, hrun, hrsh, hrL, hset⟩ :=
      foldlM_set_range
        (fun (acc : Tensor α) i => do
          let ii ← (Tensor.mk data [r, c] : Tensor α).unravel_index i
          let ii' := Tensor.swapPos ii 0 1
          let v ← (Tensor.mk data [r, c] : Tensor α).data.get? i
          Tensor.indexSet acc ii' v)
        [c, r] (c * r) (fun i => r * (i % c) + i / c)
        (fun i => data.getD i (data.head hne)) (r * c) hp hinj hstep
        (Tensor.zeros [c, r]) rfl hzL
    refine ⟨res, ?_, hrsh, hrL, ?_⟩
    · rw [hunf]
      exact hrun
    · intro j hj
      have hj2 : c * (j % r) + j / r < r * c := swap_pos_bound c r j hr hj
      have hpj : r * ((c * (j % r) + j / r) % c) + (c * (j % r) + j / r) / c = j :=
        swap_pos_cancel r c j hc hj
      have hsj : res.data.get? (r * ((c * (j % r) + j / r) % c) +
          (c * (j % r) + j / r) / c) =
          some (data.getD (c * (j % r) + j / r) (data.head hne)) :=
        hset (c * (j % r) + j / r) hj2
      rw [hpj] at hsj
      rw [hsj]
      have hilen2 : c * (j % r) + j / r < data.length := by rw [hlen]; exact hj2
      rw [List.get?_eq_get hilen2, List.get_eq_getElem,
        List.getD_eq_getElem _ _ hilen2]
  · have hrc0 : r * c = 0 := by omega
    have hc0 : c * r = 0 := by
      rcases Nat.mul_eq_zero.mp hrc0 with h | h
      · rw [h, Nat.mul_zero]
      · rw [h, Nat.zero_mul]
    refine ⟨Tensor.zeros [c, r], ?_, rfl, ?_, ?_⟩
    · rw [hunf, hrc0]
      rfl
    · show (List.replicate (shape_product [c, r]) (0 : α)).length = c * r
      rw [List.length_replicate]
      show 1 * c * r = c * r
      rw [Nat.one_mul]
    · intro j hj
      exact absurd hj (by omega)

/-- Claim C8: for every rank-2 tensor satisfying the representation
invariant, transposing twice succeeds and returns the original tensor in
both shape and data. -/
theorem transpose_involution {α : Type} [Zero α] (t : Tensor α)
    (h2 : t.ndim = 2) (hInv : t.Inv) :
    (t.transpose >>= Tensor.transpose) = some t := by
  obtain ⟨data, s⟩ := t
  rcases s with _ | ⟨r, s1⟩
  · change (0 : Nat) = 2 at h2
    omega
  rcases s1 with _ | ⟨c, s2⟩
  · change (1 : Nat) = 2 at h2
    omega
  rcases s2 with _ | ⟨x, s3⟩
  swap
  · change s3.length + 1 + 1 + 1 = 2 at h2
    omega
  have hlen : data.length = r * c := by
    have h : data.length = 1 * r * c := hInv
    rw [Nat.one_mul] at h
    exact h
  obtain ⟨res1, h1, hsh1, hL1, hget1⟩ := swapaxes2_get data r c hlen
  obtain ⟨d1, s1⟩ := res1
  change s1 = [c, r] at hsh1
  subst hsh1
  change d1.length = c * r at hL1
  have hget1' : ∀ j, j < c * r → d1.get? j = data.get? (c * (j % r) + j / r) := hget1
  obtain ⟨res2, hh2, hsh2, hL2, hget2⟩ := swapaxes2_get d1 c r hL1
  obtain ⟨d2, s2⟩ := res2
  change s2 = [r, c] at hsh2
  subst hsh2
  change d2.length = r * c at hL2
  have hget2' : ∀ j, j < r * c → d2.get? j = d1.get? (r * (j % c) + j / c) := hget2
  show ((Tensor.mk data [r, c] : Tensor α).transpose >>= Tensor.transpose) =
    some (Tensor.mk data [r, c])
  rw [Tensor.transpose,
    if_pos (show (Tensor.mk data [r, c] : Tensor α).ndim = 2 from rfl),
    h1, option_bind_some, Tensor.transpose,
    if_pos (show (Tensor.mk d1 [c, r] : Tensor α).ndim = 2 from rfl), hh2]
  have hdata : d2 = data := by
    apply List.ext_get?
    intro n
    by_cases hn : n < r * c
    · have hrc : 0 < r * c := by omega
      have hr : 0 < r := by
        rcases Nat.eq_zero_or_pos r with h | h
        · rw [h, Nat.zero_mul] at hrc; omega
        · exact h
      have hc : 0 < c := by
        rcases Nat.eq_zero_or_pos c with h | h
        · rw [h, Nat.mul_zero] at hrc; omega
        · exact h
      have hun : r * (n % c) + n / c < c * r := swap_pos_bound r c n hc hn
      have hcancel : c * ((r * (n % c) + n / c) % r) +
          (r * (n % c) + n / c) / r = n := swap_pos_cancel c r n hr hn
      have e1 : d2.get? n = d1.get? (r * (n % c) + n / c) := hget2' n hn
      have e2 : d1.get? (r * (n % c) + n / c) =
          data.get? (c * ((r * (n % c) + n / c) % r) +
            (r * (n % c) + n / c) / r) :=
        hget1' (r * (n % c) + n / c) hun
      rw [e1, e2, hcancel]
    · rw [List.get?_eq_none.mpr (by omega), List.get?_eq_none.mpr (by omega)]
  rw [hdata]

/-- Witness for C8 at the concrete tensor `⟨[0,1,2,3,4,5], [2,3]⟩`. -/
theorem transpose_involution_witness :
    (Tensor.mk ([0, 1, 2, 3, 4, 5] : List Nat) [2, 3]).ndim = 2 ∧
      (Tensor.mk ([0, 1, 2, 3, 4, 5] : List Nat) [2, 3]).Inv ∧
      ((Tensor.mk ([0, 1, 2, 3, 4, 5] : List Nat) [2, 3]).transpose >>=
        Tensor.transpose) =
        some (Tensor.mk ([0, 1, 2, 3, 4, 5] : List Nat) [2, 3]) :=
  ⟨rfl, by decide,
    transpose_involution (Tensor.mk ([0, 1, 2, 3, 4, 5] : List Nat) [2, 3])
      rfl (by decide)⟩

end Numeric
